import Mathlib

/-!
Verification of the volumetric slice-propagation procedure
(`segment_mask_in_volume` and its inner `segment_range` loop) from
`micro_sam/multi_dimensional_segmentation.py`, against its design
specification.

The embedding models:
* a slice mask as a flat list of booleans;
* the volume as a function from slice index to mask, mutated in place;
* the external slice segmenter `segment_from_mask` as an abstract function
  from the recorded call data (slice index, prompt mask, prompt flags,
  box extension) to the resulting mask;
* the `while True` loop of `segment_range` as a fuel-indexed recursion
  (the wrapper supplies fuel strictly larger than the iteration count of
  every call site);
* an execution trace: the ordered list of slice indices written into the
  volume and the ordered list of segmenter invocations.
-/

namespace MicroSam

/-- A 2D slice mask, flattened to a list of booleans (foreground = `true`).
In the source the volume stores 0/1 labels; `segmentation[z] == 1` is the
boolean mask itself in this model. -/
abbrev Mask := List Bool

/-- Pointwise logical or of two same-shape masks (`np.logical_or`). -/
def maskOr (a b : Mask) : Mask := List.zipWith (fun x y => x || y) a b

/-- Modelled from the spec: `util.compute_iou` is not among the provided
source files; spec §4.2 (IoUGate) describes it as the intersection-over-union
of two same-shape boolean masks, with the degenerate all-empty case defined
as 0 so that it never counts as success. -/
def compute_iou (a b : Mask) : ℚ :=
  let inter := (List.zipWith (fun x y => x && y) a b).count true
  let uni := (maskOr a b).count true
  if uni = 0 then 0 else (inter : ℚ) / (uni : ℚ)

/-- One invocation of `segment_from_mask`: the slice index `i`, the prompt
mask passed as first mask argument, the prompt-component flags and the box
extension factor. -/
structure SegCall where
  slice : Int
  prompt : Mask
  use_box : Bool
  use_mask : Bool
  use_points : Bool
  box_extension : ℚ
deriving DecidableEq

/-- State threaded through `segment_mask_in_volume`: the volume (slice index
to mask), the ordered list of slice indices written so far, and the ordered
list of segmenter calls made so far. -/
structure SegState where
  vol : Int → Mask
  writes : List Int
  calls : List SegCall

def mkCall (ub um up : Bool) (ext : ℚ) (z : Int) (prompt : Mask) : SegCall :=
  ⟨z, prompt, ub, um, up, ext⟩

/-- The numpy comparison operators passed as `stopping_criterion`
(`np.less`, `np.less_equal`, `np.greater`, `np.greater_equal`). -/
inductive Criterion
| lt | le | gt | ge
deriving DecidableEq

def Criterion.eval : Criterion → Int → Int → Bool
| .lt, a, b => decide (a < b)
| .le, a, b => decide (a ≤ b)
| .gt, a, b => decide (b < a)
| .ge, a, b => decide (b ≤ a)

/-- Whether the IoU gate halts the walk: lines 67–72 of
`multi_dimensional_segmentation.py` (`if threshold is not None: ...
if iou < threshold: break`). -/
def gateHalts (threshold : Option ℚ) (prev cand : Mask) : Bool :=
  match threshold with
  | some t => decide (compute_iou prev cand < t)
  | none => false

/-- The `while True` body of `segment_range` (lines 58–79): segment slice `z`
from the mask at `z - increment`, optionally gate on IoU, write, advance by
`increment`, stop when the criterion relates the advanced index to `z_stop`.
Fuel-indexed; every call site supplies fuel exceeding its iteration count. -/
def segment_range_loop (segFn : SegCall → Mask) (ub um up : Bool) (ext : ℚ)
    (threshold : Option ℚ) (z_stop inc : Int) (crit : Criterion) :
    Nat → Int → SegState → SegState
| 0, _, st => st
| fuel+1, z, st =>
  let seg_prev := st.vol (z - inc)
  let call := mkCall ub um up ext z seg_prev
  let seg_z := segFn call
  let st1 : SegState := ⟨st.vol, st.writes, st.calls ++ [call]⟩
  if gateHalts threshold seg_prev seg_z then st1
  else
    let st2 : SegState := ⟨Function.update st1.vol z seg_z, st1.writes ++ [z], st1.calls⟩
    if crit.eval (z + inc) z_stop then st2
    else segment_range_loop segFn ub um up ext threshold z_stop inc crit fuel (z + inc) st2

/-- `segment_range(z_start, z_stop, increment, stopping_criterion, threshold)`:
the walk starts at `z_start + increment`.  The fuel `|z_stop - z_start| + 1`
strictly exceeds the iteration count of every call site in the source. -/
def segment_range (segFn : SegCall → Mask) (ub um up : Bool) (ext : ℚ)
    (z_start z_stop inc : Int) (crit : Criterion) (threshold : Option ℚ)
    (st : SegState) : SegState :=
  segment_range_loop segFn ub um up ext threshold z_stop inc crit
    ((z_stop - z_start).natAbs + 1) (z_start + inc) st

/-- One iteration of the gap-filling loop of `segment_mask_in_volume`
(lines 94–135) for the consecutive pair `p = (z_start, z_stop)` of
`segmented_slices`.  `z0`/`z1` are the minimum/maximum segmented slice,
`z_mid = (z_start + z_stop) // 2` with Python floor division. -/
def fill_gap (segFn : SegCall → Mask) (ub um up : Bool) (ext : ℚ)
    (z0 z1 : Int) (stop_lower stop_upper : Bool) (st : SegState) (p : Int × Int) :
    SegState :=
  let z_start := p.1
  let z_stop := p.2
  let slice_diff := z_stop - z_start
  let z_mid := (z_start + z_stop).fdiv 2
  if slice_diff = 1 then st
  else if z_start = z0 ∧ stop_lower = true then
    segment_range segFn ub um up ext z_stop z_start (-1) .le none st
  else if z_stop = z1 ∧ stop_upper = true then
    segment_range segFn ub um up ext z_start z_stop 1 .ge none st
  else if slice_diff = 2 then
    let z := z_start + 1
    let seg_prompt := maskOr (st.vol z_start) (st.vol z_stop)
    let call := mkCall ub um up ext z seg_prompt
    ⟨Function.update st.vol z (segFn call), st.writes ++ [z], st.calls ++ [call]⟩
  else
    let st1 := segment_range segFn ub um up ext z_start z_mid 1
      (if slice_diff % 2 = 0 then .ge else .gt) none st
    let st2 := segment_range segFn ub um up ext z_stop z_mid (-1) .le none st1
    if slice_diff % 2 = 0 then
      let seg_prompt := maskOr (st2.vol (z_mid - 1)) (st2.vol (z_mid + 1))
      let call := mkCall ub um up ext z_mid seg_prompt
      ⟨Function.update st2.vol z_mid (segFn call), st2.writes ++ [z_mid], st2.calls ++ [call]⟩
    else st2

/-- The configuration arguments of `segment_mask_in_volume`. -/
structure Config where
  stop_lower : Bool
  stop_upper : Bool
  iou_threshold : ℚ
  projection : String
  box_extension : ℚ

/-- `segment_mask_in_volume` (lines 17–137).  Returns `none` when the
`assert projection in ("mask", "bounding_box", "points")` fails, or when
`segmented_slices` is empty (`np.min` raises).  Otherwise: the flag triple
`(use_box, use_mask, use_points)` is fixed from the projection, the walk
below the minimum slice and above the maximum slice run under their guards
with the IoU gate, then consecutive pairs of `segmented_slices` are
gap-filled. -/
def segment_mask_in_volume (segFn : SegCall → Mask) (vol0 : Int → Mask)
    (num_slices : Nat) (segmented_slices : List Int) (cfg : Config) :
    Option SegState :=
  if cfg.projection = "mask" ∨ cfg.projection = "bounding_box" ∨ cfg.projection = "points" then
    let flags : Bool × Bool × Bool :=
      if cfg.projection = "mask" then (true, true, false)
      else if cfg.projection = "points" then (true, true, true)
      else (true, false, false)
    match segmented_slices with
    | [] => none
    | s :: rest =>
      let z0 := rest.foldl min s
      let z1 := rest.foldl max s
      let lastSlice : Int := (num_slices : Int) - 1
      let st0 : SegState := ⟨vol0, [], []⟩
      let st1 := if 0 < z0 ∧ cfg.stop_lower = false then
          segment_range segFn flags.1 flags.2.1 flags.2.2 cfg.box_extension z0 0 (-1)
            .lt (some cfg.iou_threshold) st0
        else st0
      let st2 := if z1 < lastSlice ∧ cfg.stop_upper = false then
          segment_range segFn flags.1 flags.2.1 flags.2.2 cfg.box_extension z1 lastSlice 1
            .gt (some cfg.iou_threshold) st1
        else st1
      let st3 := if z0 ≠ z1 then
          (segmented_slices.zip segmented_slices.tail).foldl
            (fill_gap segFn flags.1 flags.2.1 flags.2.2 cfg.box_extension z0 z1
              cfg.stop_lower cfg.stop_upper) st2
        else st2
      some st3
  else none

/-- The arithmetic run `[z, z + inc, ..., z + (n-1)·inc]`. -/
def intRun (z inc : Int) : Nat → List Int
| 0 => []
| n+1 => z :: intRun (z + inc) inc n

theorem intRun_mem {inc : Int} : ∀ {n : Nat} {z w : Int},
    w ∈ intRun z inc n ↔ ∃ k : Nat, k < n ∧ w = z + k * inc := by
  intro n
  induction n with
  | zero => intro z w; simp [intRun]
  | succ m ih =>
    intro z w
    simp only [intRun, List.mem_cons, ih]
    constructor
    · rintro (rfl | ⟨k, hk, rfl⟩)
      · exact ⟨0, by omega, by simp⟩
      · exact ⟨k + 1, by omega, by push_cast; ring⟩
    · rintro ⟨k, hk, rfl⟩
      cases k with
      | zero => left; simp
      | succ j =>
        right
        refine ⟨j, by omega, by push_cast; ring⟩

theorem intRun_nodup {inc : Int} (h : inc ≠ 0) :
    ∀ (n : Nat) (z : Int), (intRun z inc n).Nodup := by
  intro n
  induction n with
  | zero => intro z; simp [intRun]
  | succ m ih =>
    intro z
    simp only [intRun, List.nodup_cons]
    refine ⟨fun hmem => ?_, ih (z + inc)⟩
    rcases intRun_mem.mp hmem with ⟨k, _, hval⟩
    have h1 : ((k : Int) + 1) * inc = 0 := by linarith
    rcases mul_eq_zero.mp h1 with h2 | h2
    · omega
    · exact h h2

theorem intRun_one_mem {z w : Int} {n : Nat} :
    w ∈ intRun z 1 n ↔ z ≤ w ∧ w < z + n := by
  rw [intRun_mem]
  constructor
  · rintro ⟨k, hk, rfl⟩; omega
  · rintro ⟨h1, h2⟩
    exact ⟨(w - z).toNat, by omega, by omega⟩

theorem intRun_negone_mem {z w : Int} {n : Nat} :
    w ∈ intRun z (-1) n ↔ z - n < w ∧ w ≤ z := by
  rw [intRun_mem]
  constructor
  · rintro ⟨k, hk, rfl⟩; omega
  · rintro ⟨h1, h2⟩
    exact ⟨(z - w).toNat, by omega, by omega⟩

/-- Shape of the `segment_range` loop: the written indices extend the trace by
a consecutive run starting at the entry index, the volume is unchanged off
that run, and every appended call targets a slice of the (one longer) run and
carries the configured prompt flags. -/
theorem segment_range_loop_shape (segFn : SegCall → Mask) (ub um up : Bool) (ext : ℚ)
    (threshold : Option ℚ) (z_stop inc : Int) (crit : Criterion) :
    ∀ (fuel : Nat) (z : Int) (st : SegState),
    ∃ (k : Nat) (cApp : List SegCall),
      (segment_range_loop segFn ub um up ext threshold z_stop inc crit fuel z st).writes
        = st.writes ++ intRun z inc k ∧
      (∀ i, i ∉ intRun z inc k →
        (segment_range_loop segFn ub um up ext threshold z_stop inc crit fuel z st).vol i
          = st.vol i) ∧
      (segment_range_loop segFn ub um up ext threshold z_stop inc crit fuel z st).calls
        = st.calls ++ cApp ∧
      (∀ c ∈ cApp, c.slice ∈ intRun z inc (k + 1) ∧ c.use_box = ub ∧ c.use_mask = um ∧
        c.use_points = up ∧ c.box_extension = ext) := by
  intro fuel
  induction fuel with
  | zero =>
    intro z st
    exact ⟨0, [], by simp [segment_range_loop, intRun], by simp [segment_range_loop, intRun],
      by simp [segment_range_loop], by simp⟩
  | succ f ih =>
    intro z st
    simp only [segment_range_loop]
    by_cases hg : gateHalts threshold (st.vol (z - inc))
        (segFn (mkCall ub um up ext z (st.vol (z - inc)))) = true
    · rw [if_pos hg]
      refine ⟨0, [mkCall ub um up ext z (st.vol (z - inc))], by simp [intRun], by simp [intRun],
        rfl, ?_⟩
      intro c hc
      simp only [List.mem_singleton] at hc
      subst hc
      simp [mkCall, intRun]
    · rw [if_neg hg]
      by_cases hc : crit.eval (z + inc) z_stop = true
      · rw [if_pos hc]
        refine ⟨1, [mkCall ub um up ext z (st.vol (z - inc))], by simp [intRun], ?_, rfl, ?_⟩
        · intro i hi
          simp only [intRun, List.mem_singleton] at hi
          exact Function.update_noteq hi _ _
        · intro c hcm
          simp only [List.mem_singleton] at hcm
          subst hcm
          simp [mkCall, intRun]
      · rw [if_neg hc]
        obtain ⟨k, cApp, hw, hv, hcs, hflag⟩ := ih (z + inc)
          ⟨Function.update st.vol z (segFn (mkCall ub um up ext z (st.vol (z - inc)))),
            st.writes ++ [z], st.calls ++ [mkCall ub um up ext z (st.vol (z - inc))]⟩
        refine ⟨k + 1, mkCall ub um up ext z (st.vol (z - inc)) :: cApp, ?_, ?_, ?_, ?_⟩
        · rw [hw]
          simp [intRun]
        · intro i hi
          simp only [intRun, List.mem_cons, not_or] at hi
          rw [hv i hi.2]
          exact Function.update_noteq hi.1 _ _
        · rw [hcs]
          simp
        · intro c hcm
          rcases List.mem_cons.mp hcm with rfl | hcm'
          · simp [mkCall, intRun]
          · obtain ⟨hs, h1, h2, h3, h4⟩ := hflag c hcm'
            exact ⟨List.mem_cons_of_mem z hs, h1, h2, h3, h4⟩

/-- Every element of the loop's run of writes lies between `lo` and the entry
index, for a downward walk whose stopping criterion only lets indices at or
above `lo` continue (applies to `np.less` with stop 0 and `np.less_equal`). -/
theorem segment_range_loop_down_bound (segFn : SegCall → Mask) (ub um up : Bool) (ext : ℚ)
    (threshold : Option ℚ) (z_stop : Int) (crit : Criterion) (lo : Int)
    (hcrit : ∀ y : Int, crit.eval y z_stop = false → lo ≤ y) :
    ∀ (fuel : Nat) (z : Int) (st : SegState), lo ≤ z →
      (∀ w ∈ (segment_range_loop segFn ub um up ext threshold z_stop (-1) crit fuel z st).writes,
        w ∈ st.writes ∨ (lo ≤ w ∧ w ≤ z)) ∧
      (∀ c ∈ (segment_range_loop segFn ub um up ext threshold z_stop (-1) crit fuel z st).calls,
        c ∈ st.calls ∨ (lo ≤ c.slice ∧ c.slice ≤ z)) := by
  intro fuel
  induction fuel with
  | zero =>
    intro z st _
    constructor
    · intro w hw; exact Or.inl hw
    · intro c hc; exact Or.inl hc
  | succ f ih =>
    intro z st hz
    simp only [segment_range_loop]
    by_cases hg : gateHalts threshold (st.vol (z - -1))
        (segFn (mkCall ub um up ext z (st.vol (z - -1)))) = true
    · rw [if_pos hg]
      constructor
      · intro w hw; exact Or.inl hw
      · intro c hc
        rcases List.mem_append.mp hc with h | h
        · exact Or.inl h
        · simp only [List.mem_singleton] at h
          subst h
          exact Or.inr ⟨hz, le_refl z⟩
    · rw [if_neg hg]
      by_cases hc : crit.eval (z + -1) z_stop = true
      · rw [if_pos hc]
        constructor
        · intro w hw
          rcases List.mem_append.mp hw with h | h
          · exact Or.inl h
          · simp only [List.mem_singleton] at h
            subst h
            exact Or.inr ⟨hz, le_refl w⟩
        · intro c hcm
          rcases List.mem_append.mp hcm with h | h
          · exact Or.inl h
          · simp only [List.mem_singleton] at h
            subst h
            exact Or.inr ⟨hz, le_refl z⟩
      · rw [if_neg hc]
        have hz' : lo ≤ z + -1 := hcrit (z + -1) (by simpa using hc)
        obtain ⟨ihw, ihc⟩ := ih (z + -1)
          ⟨Function.update st.vol z (segFn (mkCall ub um up ext z (st.vol (z - -1)))),
            st.writes ++ [z], st.calls ++ [mkCall ub um up ext z (st.vol (z - -1))]⟩ hz'
        constructor
        · intro w hw
          rcases ihw w hw with h | h
          · rcases List.mem_append.mp h with h' | h'
            · exact Or.inl h'
            · simp only [List.mem_singleton] at h'
              subst h'
              exact Or.inr ⟨hz, le_refl w⟩
          · exact Or.inr ⟨h.1, by omega⟩
        · intro c hcm
          rcases ihc c hcm with h | h
          · rcases List.mem_append.mp h with h' | h'
            · exact Or.inl h'
            · simp only [List.mem_singleton] at h'
              subst h'
              exact Or.inr ⟨hz, le_refl z⟩
          · exact Or.inr ⟨h.1, by omega⟩

/-- Upward counterpart of `segment_range_loop_down_bound`, bounding the walk
by `hi` (applies to `np.greater` with stop at the last slice). -/
theorem segment_range_loop_up_bound (segFn : SegCall → Mask) (ub um up : Bool) (ext : ℚ)
    (threshold : Option ℚ) (z_stop : Int) (crit : Criterion) (hi : Int)
    (hcrit : ∀ y : Int, crit.eval y z_stop = false → y ≤ hi) :
    ∀ (fuel : Nat) (z : Int) (st : SegState), z ≤ hi →
      (∀ w ∈ (segment_range_loop segFn ub um up ext threshold z_stop 1 crit fuel z st).writes,
        w ∈ st.writes ∨ (z ≤ w ∧ w ≤ hi)) ∧
      (∀ c ∈ (segment_range_loop segFn ub um up ext threshold z_stop 1 crit fuel z st).calls,
        c ∈ st.calls ∨ (z ≤ c.slice ∧ c.slice ≤ hi)) := by
  intro fuel
  induction fuel with
  | zero =>
    intro z st _
    constructor
    · intro w hw; exact Or.inl hw
    · intro c hc; exact Or.inl hc
  | succ f ih =>
    intro z st hz
    simp only [segment_range_loop]
    by_cases hg : gateHalts threshold (st.vol (z - 1))
        (segFn (mkCall ub um up ext z (st.vol (z - 1)))) = true
    · rw [if_pos hg]
      constructor
      · intro w hw; exact Or.inl hw
      · intro c hc
        rcases List.mem_append.mp hc with h | h
        · exact Or.inl h
        · simp only [List.mem_singleton] at h
          subst h
          exact Or.inr ⟨le_refl z, hz⟩
    · rw [if_neg hg]
      by_cases hc : crit.eval (z + 1) z_stop = true
      · rw [if_pos hc]
        constructor
        · intro w hw
          rcases List.mem_append.mp hw with h | h
          · exact Or.inl h
          · simp only [List.mem_singleton] at h
            subst h
            exact Or.inr ⟨le_refl w, hz⟩
        · intro c hcm
          rcases List.mem_append.mp hcm with h | h
          · exact Or.inl h
          · simp only [List.mem_singleton] at h
            subst h
            exact Or.inr ⟨le_refl z, hz⟩
      · rw [if_neg hc]
        have hz' : z + 1 ≤ hi := hcrit (z + 1) (by simpa using hc)
        obtain ⟨ihw, ihc⟩ := ih (z + 1)
          ⟨Function.update st.vol z (segFn (mkCall ub um up ext z (st.vol (z - 1)))),
            st.writes ++ [z], st.calls ++ [mkCall ub um up ext z (st.vol (z - 1))]⟩ hz'
        constructor
        · intro w hw
          rcases ihw w hw with h | h
          · rcases List.mem_append.mp h with h' | h'
            · exact Or.inl h'
            · simp only [List.mem_singleton] at h'
              subst h'
              exact Or.inr ⟨le_refl w, hz⟩
          · exact Or.inr ⟨by omega, h.2⟩
        · intro c hcm
          rcases ihc c hcm with h | h
          · rcases List.mem_append.mp h with h' | h'
            · exact Or.inl h'
            · simp only [List.mem_singleton] at h'
              subst h'
              exact Or.inr ⟨le_refl z, hz⟩
          · exact Or.inr ⟨by omega, h.2⟩

/-- As long as there is fuel, the loop body runs at least once and records a
call at the entry slice, prompted by the mask at `z - inc`. -/
theorem segment_range_loop_first_call (segFn : SegCall → Mask) (ub um up : Bool) (ext : ℚ)
    (threshold : Option ℚ) (z_stop inc : Int) (crit : Criterion)
    (f : Nat) (z : Int) (st : SegState) :
    mkCall ub um up ext z (st.vol (z - inc)) ∈
      (segment_range_loop segFn ub um up ext threshold z_stop inc crit (f + 1) z st).calls := by
  simp only [segment_range_loop]
  by_cases hg : gateHalts threshold (st.vol (z - inc))
      (segFn (mkCall ub um up ext z (st.vol (z - inc)))) = true
  · rw [if_pos hg]
    simp
  · rw [if_neg hg]
    by_cases hc : crit.eval (z + inc) z_stop = true
    · rw [if_pos hc]
      simp
    · rw [if_neg hc]
      obtain ⟨k, cApp, _, _, hcs, _⟩ := segment_range_loop_shape segFn ub um up ext threshold
        z_stop inc crit f (z + inc)
        ⟨Function.update st.vol z (segFn (mkCall ub um up ext z (st.vol (z - inc)))),
          st.writes ++ [z], st.calls ++ [mkCall ub um up ext z (st.vol (z - inc))]⟩
      rw [hcs]
      simp

theorem gateHalts_none (a b : Mask) : gateHalts none a b = false := rfl

/-- One ungated loop step: with `threshold = None` the gate never fires. -/
theorem segment_range_loop_none_step (segFn : SegCall → Mask) (ub um up : Bool) (ext : ℚ)
    (z_stop inc : Int) (crit : Criterion) (f : Nat) (z : Int) (st : SegState) :
    segment_range_loop segFn ub um up ext none z_stop inc crit (f + 1) z st =
      if crit.eval (z + inc) z_stop then
        ⟨Function.update st.vol z (segFn (mkCall ub um up ext z (st.vol (z - inc)))),
         st.writes ++ [z], st.calls ++ [mkCall ub um up ext z (st.vol (z - inc))]⟩
      else segment_range_loop segFn ub um up ext none z_stop inc crit f (z + inc)
        ⟨Function.update st.vol z (segFn (mkCall ub um up ext z (st.vol (z - inc)))),
         st.writes ++ [z], st.calls ++ [mkCall ub um up ext z (st.vol (z - inc))]⟩ := by
  simp only [segment_range_loop]
  rw [if_neg (by simp [gateHalts_none])]

/-- Exact run of the ungated forward walk stopped by `np.greater_equal`:
starting at `z` with `z_stop = z + d + 1`, it writes `z, z+1, ..., z_stop - 1`. -/
theorem segment_range_loop_fwd_ge (segFn : SegCall → Mask) (ub um up : Bool) (ext : ℚ) :
    ∀ (d : Nat) (z z_stop : Int) (st : SegState) (fuel : Nat),
      z_stop = z + d + 1 → d + 1 ≤ fuel →
      ∃ cApp,
        (segment_range_loop segFn ub um up ext none z_stop 1 .ge fuel z st).writes
          = st.writes ++ intRun z 1 (d + 1) ∧
        (∀ i, i ∉ intRun z 1 (d + 1) →
          (segment_range_loop segFn ub um up ext none z_stop 1 .ge fuel z st).vol i
            = st.vol i) ∧
        (segment_range_loop segFn ub um up ext none z_stop 1 .ge fuel z st).calls
          = st.calls ++ cApp ∧
        cApp.map SegCall.slice = intRun z 1 (d + 1) ∧
        (∀ c ∈ cApp, c.use_box = ub ∧ c.use_mask = um ∧ c.use_points = up ∧
          c.box_extension = ext) := by
  intro d
  induction d with
  | zero =>
    intro z z_stop st fuel hz hf
    obtain ⟨f, rfl⟩ : ∃ f, fuel = f + 1 := ⟨fuel - 1, by omega⟩
    rw [segment_range_loop_none_step,
      if_pos (show Criterion.eval .ge (z + 1) z_stop = true by
        subst hz; simp [Criterion.eval])]
    refine ⟨[mkCall ub um up ext z (st.vol (z - 1))], by simp [intRun], ?_, rfl,
      by simp [mkCall, intRun], by simp [mkCall]⟩
    intro i hi
    simp only [intRun, List.mem_singleton] at hi
    exact Function.update_noteq hi _ _
  | succ d ih =>
    intro z z_stop st fuel hz hf
    obtain ⟨f, rfl⟩ : ∃ f, fuel = f + 1 := ⟨fuel - 1, by omega⟩
    have hcrit : Criterion.eval .ge (z + 1) z_stop = false := by
      subst hz
      simp only [Criterion.eval, decide_eq_false_iff_not]
      omega
    rw [segment_range_loop_none_step, if_neg (by simp [hcrit])]
    obtain ⟨cApp, hw, hv, hcs, hmap, hflag⟩ := ih (z + 1) z_stop
      ⟨Function.update st.vol z (segFn (mkCall ub um up ext z (st.vol (z - 1)))),
        st.writes ++ [z], st.calls ++ [mkCall ub um up ext z (st.vol (z - 1))]⟩
      f (by omega) (by omega)
    refine ⟨mkCall ub um up ext z (st.vol (z - 1)) :: cApp, ?_, ?_, ?_, ?_, ?_⟩
    · rw [hw]; simp [intRun]
    · intro i hi
      simp only [intRun, List.mem_cons, not_or] at hi
      rw [hv i (by simpa [intRun] using hi.2)]
      exact Function.update_noteq hi.1 _ _
    · rw [hcs]; simp
    · simp only [List.map_cons, hmap, mkCall, intRun]
    · intro c hcm
      rcases List.mem_cons.mp hcm with rfl | hcm'
      · simp [mkCall]
      · exact hflag c hcm'

/-- Exact run of the ungated forward walk stopped by `np.greater`:
starting at `z` with `z_stop = z + d`, it writes `z, z+1, ..., z_stop`. -/
theorem segment_range_loop_fwd_gt (segFn : SegCall → Mask) (ub um up : Bool) (ext : ℚ) :
    ∀ (d : Nat) (z z_stop : Int) (st : SegState) (fuel : Nat),
      z_stop = z + d → d + 1 ≤ fuel →
      ∃ cApp,
        (segment_range_loop segFn ub um up ext none z_stop 1 .gt fuel z st).writes
          = st.writes ++ intRun z 1 (d + 1) ∧
        (∀ i, i ∉ intRun z 1 (d + 1) →
          (segment_range_loop segFn ub um up ext none z_stop 1 .gt fuel z st).vol i
            = st.vol i) ∧
        (segment_range_loop segFn ub um up ext none z_stop 1 .gt fuel z st).calls
          = st.calls ++ cApp ∧
        cApp.map SegCall.slice = intRun z 1 (d + 1) ∧
        (∀ c ∈ cApp, c.use_box = ub ∧ c.use_mask = um ∧ c.use_points = up ∧
          c.box_extension = ext) := by
  intro d
  induction d with
  | zero =>
    intro z z_stop st fuel hz hf
    obtain ⟨f, rfl⟩ : ∃ f, fuel = f + 1 := ⟨fuel - 1, by omega⟩
    rw [segment_range_loop_none_step,
      if_pos (show Criterion.eval .gt (z + 1) z_stop = true by
        subst hz; simp [Criterion.eval])]
    refine ⟨[mkCall ub um up ext z (st.vol (z - 1))], by simp [intRun], ?_, rfl,
      by simp [mkCall, intRun], by simp [mkCall]⟩
    intro i hi
    simp only [intRun, List.mem_singleton] at hi
    exact Function.update_noteq hi _ _
  | succ d ih =>
    intro z z_stop st fuel hz hf
    obtain ⟨f, rfl⟩ : ∃ f, fuel = f + 1 := ⟨fuel - 1, by omega⟩
    have hcrit : Criterion.eval .gt (z + 1) z_stop = false := by
      subst hz
      simp only [Criterion.eval, decide_eq_false_iff_not]
      omega
    rw [segment_range_loop_none_step, if_neg (by simp [hcrit])]
    obtain ⟨cApp, hw, hv, hcs, hmap, hflag⟩ := ih (z + 1) z_stop
      ⟨Function.update st.vol z (segFn (mkCall ub um up ext z (st.vol (z - 1)))),
        st.writes ++ [z], st.calls ++ [mkCall ub um up ext z (st.vol (z - 1))]⟩
      f (by omega) (by omega)
    refine ⟨mkCall ub um up ext z (st.vol (z - 1)) :: cApp, ?_, ?_, ?_, ?_, ?_⟩
    · rw [hw]; simp [intRun]
    · intro i hi
      simp only [intRun, List.mem_cons, not_or] at hi
      rw [hv i (by simpa [intRun] using hi.2)]
      exact Function.update_noteq hi.1 _ _
    · rw [hcs]; simp
    · simp only [List.map_cons, hmap, mkCall, intRun]
    · intro c hcm
      rcases List.mem_cons.mp hcm with rfl | hcm'
      · simp [mkCall]
      · exact hflag c hcm'

/-- Exact run of the ungated backward walk stopped by `np.less_equal`:
starting at `z` with `z_stop = z - (d + 1)`, it writes `z, z-1, ..., z_stop + 1`. -/
theorem segment_range_loop_bwd_le (segFn : SegCall → Mask) (ub um up : Bool) (ext : ℚ) :
    ∀ (d : Nat) (z z_stop : Int) (st : SegState) (fuel : Nat),
      z_stop = z - d - 1 → d + 1 ≤ fuel →
      ∃ cApp,
        (segment_range_loop segFn ub um up ext none z_stop (-1) .le fuel z st).writes
          = st.writes ++ intRun z (-1) (d + 1) ∧
        (∀ i, i ∉ intRun z (-1) (d + 1) →
          (segment_range_loop segFn ub um up ext none z_stop (-1) .le fuel z st).vol i
            = st.vol i) ∧
        (segment_range_loop segFn ub um up ext none z_stop (-1) .le fuel z st).calls
          = st.calls ++ cApp ∧
        cApp.map SegCall.slice = intRun z (-1) (d + 1) ∧
        (∀ c ∈ cApp, c.use_box = ub ∧ c.use_mask = um ∧ c.use_points = up ∧
          c.box_extension = ext) := by
  intro d
  induction d with
  | zero =>
    intro z z_stop st fuel hz hf
    obtain ⟨f, rfl⟩ : ∃ f, fuel = f + 1 := ⟨fuel - 1, by omega⟩
    rw [segment_range_loop_none_step,
      if_pos (show Criterion.eval .le (z + -1) z_stop = true by
        subst hz; simp only [Criterion.eval, decide_eq_true_eq]; omega)]
    refine ⟨[mkCall ub um up ext z (st.vol (z - -1))], by simp [intRun], ?_, rfl,
      by simp [mkCall, intRun], by simp [mkCall]⟩
    intro i hi
    simp only [intRun, List.mem_singleton] at hi
    exact Function.update_noteq hi _ _
  | succ d ih =>
    intro z z_stop st fuel hz hf
    obtain ⟨f, rfl⟩ : ∃ f, fuel = f + 1 := ⟨fuel - 1, by omega⟩
    have hcrit : Criterion.eval .le (z + -1) z_stop = false := by
      subst hz
      simp only [Criterion.eval, decide_eq_false_iff_not]
      omega
    rw [segment_range_loop_none_step, if_neg (by simp [hcrit])]
    obtain ⟨cApp, hw, hv, hcs, hmap, hflag⟩ := ih (z + -1) z_stop
      ⟨Function.update st.vol z (segFn (mkCall ub um up ext z (st.vol (z - -1)))),
        st.writes ++ [z], st.calls ++ [mkCall ub um up ext z (st.vol (z - -1))]⟩
      f (by omega) (by omega)
    refine ⟨mkCall ub um up ext z (st.vol (z - -1)) :: cApp, ?_, ?_, ?_, ?_, ?_⟩
    · rw [hw]; simp [intRun]
    · intro i hi
      simp only [intRun, List.mem_cons, not_or] at hi
      rw [hv i (by simpa [intRun] using hi.2)]
      exact Function.update_noteq hi.1 _ _
    · rw [hcs]; simp
    · simp only [List.map_cons, hmap, mkCall, intRun]
    · intro c hcm
      rcases List.mem_cons.mp hcm with rfl | hcm'
      · simp [mkCall]
      · exact hflag c hcm'

/-- `segment_range(a, b, 1, np.greater_equal)` with `a + 2 ≤ b` writes exactly
`a+1, ..., b-1`, in increasing order. -/
theorem segment_range_fwd_ge_spec (segFn : SegCall → Mask) (ub um up : Bool) (ext : ℚ)
    (a b : Int) (st : SegState) (h : a + 2 ≤ b) :
    ∃ cApp,
      (segment_range segFn ub um up ext a b 1 .ge none st).writes
        = st.writes ++ intRun (a + 1) 1 (b - a - 1).toNat ∧
      (∀ i, i ∉ intRun (a + 1) 1 (b - a - 1).toNat →
        (segment_range segFn ub um up ext a b 1 .ge none st).vol i = st.vol i) ∧
      (segment_range segFn ub um up ext a b 1 .ge none st).calls = st.calls ++ cApp ∧
      cApp.map SegCall.slice = intRun (a + 1) 1 (b - a - 1).toNat ∧
      (∀ c ∈ cApp, c.use_box = ub ∧ c.use_mask = um ∧ c.use_points = up ∧
        c.box_extension = ext) := by
  have hd : (b - a - 1).toNat = (b - a - 2).toNat + 1 := by omega
  simp only [segment_range]
  rw [hd]
  exact segment_range_loop_fwd_ge segFn ub um up ext (b - a - 2).toNat (a + 1) b st
    ((b - a).natAbs + 1) (by omega) (by omega)

/-- `segment_range(a, b, 1, np.greater)` with `a + 1 ≤ b` writes exactly
`a+1, ..., b`, in increasing order. -/
theorem segment_range_fwd_gt_spec (segFn : SegCall → Mask) (ub um up : Bool) (ext : ℚ)
    (a b : Int) (st : SegState) (h : a + 1 ≤ b) :
    ∃ cApp,
      (segment_range segFn ub um up ext a b 1 .gt none st).writes
        = st.writes ++ intRun (a + 1) 1 (b - a).toNat ∧
      (∀ i, i ∉ intRun (a + 1) 1 (b - a).toNat →
        (segment_range segFn ub um up ext a b 1 .gt none st).vol i = st.vol i) ∧
      (segment_range segFn ub um up ext a b 1 .gt none st).calls = st.calls ++ cApp ∧
      cApp.map SegCall.slice = intRun (a + 1) 1 (b - a).toNat ∧
      (∀ c ∈ cApp, c.use_box = ub ∧ c.use_mask = um ∧ c.use_points = up ∧
        c.box_extension = ext) := by
  have hd : (b - a).toNat = (b - a - 1).toNat + 1 := by omega
  simp only [segment_range]
  rw [hd]
  exact segment_range_loop_fwd_gt segFn ub um up ext (b - a - 1).toNat (a + 1) b st
    ((b - a).natAbs + 1) (by omega) (by omega)

/-- `segment_range(a, b, -1, np.less_equal)` with `b + 2 ≤ a` writes exactly
`a-1, a-2, ..., b+1`, in decreasing order. -/
theorem segment_range_bwd_le_spec (segFn : SegCall → Mask) (ub um up : Bool) (ext : ℚ)
    (a b : Int) (st : SegState) (h : b + 2 ≤ a) :
    ∃ cApp,
      (segment_range segFn ub um up ext a b (-1) .le none st).writes
        = st.writes ++ intRun (a + -1) (-1) (a - b - 1).toNat ∧
      (∀ i, i ∉ intRun (a + -1) (-1) (a - b - 1).toNat →
        (segment_range segFn ub um up ext a b (-1) .le none st).vol i = st.vol i) ∧
      (segment_range segFn ub um up ext a b (-1) .le none st).calls = st.calls ++ cApp ∧
      cApp.map SegCall.slice = intRun (a + -1) (-1) (a - b - 1).toNat ∧
      (∀ c ∈ cApp, c.use_box = ub ∧ c.use_mask = um ∧ c.use_points = up ∧
        c.box_extension = ext) := by
  have hd : (a - b - 1).toNat = (a - b - 2).toNat + 1 := by omega
  simp only [segment_range]
  rw [hd]
  exact segment_range_loop_bwd_le segFn ub um up ext (a - b - 2).toNat (a + -1) b st
    ((b - a).natAbs + 1) (by omega) (by omega)

/-- Coverage of one gap: whichever of its five cases runs, `fill_gap` on a
pair `z_start < z_stop` appends to the write trace exactly the interior
indices `(z_start, z_stop)`, each once, leaves the volume unchanged
elsewhere, and only issues calls for interior slices with the configured
flags. -/
theorem fill_gap_spec (segFn : SegCall → Mask) (ub um up : Bool) (ext : ℚ)
    (z0 z1 : Int) (sl su : Bool) (st : SegState) (z_start z_stop : Int)
    (h : z_start < z_stop) :
    ∃ app cApp,
      (fill_gap segFn ub um up ext z0 z1 sl su st (z_start, z_stop)).writes
        = st.writes ++ app ∧
      app.Nodup ∧
      (∀ i : Int, i ∈ app ↔ z_start < i ∧ i < z_stop) ∧
      (∀ i : Int, i ∉ app →
        (fill_gap segFn ub um up ext z0 z1 sl su st (z_start, z_stop)).vol i = st.vol i) ∧
      (fill_gap segFn ub um up ext z0 z1 sl su st (z_start, z_stop)).calls
        = st.calls ++ cApp ∧
      (∀ c ∈ cApp, (z_start < c.slice ∧ c.slice < z_stop) ∧ c.use_box = ub ∧
        c.use_mask = um ∧ c.use_points = up ∧ c.box_extension = ext) := by
  have hmid : (z_start + z_stop).fdiv 2 = (z_start + z_stop) / 2 :=
    Int.fdiv_eq_ediv _ (by omega)
  simp only [fill_gap, hmid]
  by_cases h1 : z_stop - z_start = 1
  · rw [if_pos h1]
    refine ⟨[], [], by simp, List.nodup_nil, ?_, by simp, by simp, by simp⟩
    intro i
    simp only [List.not_mem_nil, false_iff]
    omega
  · rw [if_neg h1]
    by_cases h2 : z_start = z0 ∧ sl = true
    · rw [if_pos h2]
      obtain ⟨cApp, hw, hv, hcs, hmap, hflag⟩ :=
        segment_range_bwd_le_spec segFn ub um up ext z_stop z_start st (by omega)
      refine ⟨intRun (z_stop + -1) (-1) (z_stop - z_start - 1).toNat, cApp, hw,
        intRun_nodup (by norm_num) _ _, ?_, hv, hcs, ?_⟩
      · intro i
        rw [intRun_negone_mem]
        omega
      · intro c hc
        obtain ⟨hub, hum, hup, hext⟩ := hflag c hc
        have hs : c.slice ∈ intRun (z_stop + -1) (-1) (z_stop - z_start - 1).toNat := by
          rw [← hmap]
          exact List.mem_map_of_mem SegCall.slice hc
        rw [intRun_negone_mem] at hs
        exact ⟨⟨by omega, by omega⟩, hub, hum, hup, hext⟩
    · rw [if_neg h2]
      by_cases h3 : z_stop = z1 ∧ su = true
      · rw [if_pos h3]
        obtain ⟨cApp, hw, hv, hcs, hmap, hflag⟩ :=
          segment_range_fwd_ge_spec segFn ub um up ext z_start z_stop st (by omega)
        refine ⟨intRun (z_start + 1) 1 (z_stop - z_start - 1).toNat, cApp, hw,
          intRun_nodup (by norm_num) _ _, ?_, hv, hcs, ?_⟩
        · intro i
          rw [intRun_one_mem]
          omega
        · intro c hc
          obtain ⟨hub, hum, hup, hext⟩ := hflag c hc
          have hs : c.slice ∈ intRun (z_start + 1) 1 (z_stop - z_start - 1).toNat := by
            rw [← hmap]
            exact List.mem_map_of_mem SegCall.slice hc
          rw [intRun_one_mem] at hs
          exact ⟨⟨by omega, by omega⟩, hub, hum, hup, hext⟩
      · rw [if_neg h3]
        by_cases h4 : z_stop - z_start = 2
        · rw [if_pos h4]
          refine ⟨[z_start + 1],
            [mkCall ub um up ext (z_start + 1) (maskOr (st.vol z_start) (st.vol z_stop))],
            rfl, by simp, ?_, ?_, rfl, ?_⟩
          · intro i
            simp only [List.mem_singleton]
            omega
          · intro i hi
            simp only [List.mem_singleton] at hi
            exact Function.update_noteq hi _ _
          · intro c hc
            simp only [List.mem_singleton] at hc
            subst hc
            exact ⟨⟨by show z_start < z_start + 1; omega,
              by show z_start + 1 < z_stop; omega⟩, rfl, rfl, rfl, rfl⟩
        · rw [if_neg h4]
          have h5 : z_start + 3 ≤ z_stop := by omega
          by_cases h6 : (z_stop - z_start) % 2 = 0
          · rw [if_pos h6, if_pos h6]
            have hm1 : z_start + 2 ≤ (z_start + z_stop) / 2 := by omega
            have hm2 : (z_start + z_stop) / 2 + 2 ≤ z_stop := by omega
            obtain ⟨cApp1, hw1, hv1, hcs1, hmap1, hflag1⟩ :=
              segment_range_fwd_ge_spec segFn ub um up ext z_start ((z_start + z_stop) / 2)
                st (by omega)
            obtain ⟨cApp2, hw2, hv2, hcs2, hmap2, hflag2⟩ :=
              segment_range_bwd_le_spec segFn ub um up ext z_stop ((z_start + z_stop) / 2)
                (segment_range segFn ub um up ext z_start ((z_start + z_stop) / 2) 1 .ge none st)
                (by omega)
            refine ⟨(intRun (z_start + 1) 1 ((z_start + z_stop) / 2 - z_start - 1).toNat
                ++ intRun (z_stop + -1) (-1) (z_stop - (z_start + z_stop) / 2 - 1).toNat)
                ++ [(z_start + z_stop) / 2],
              (cApp1 ++ cApp2) ++ [mkCall ub um up ext ((z_start + z_stop) / 2)
                (maskOr
                  ((segment_range segFn ub um up ext z_stop ((z_start + z_stop) / 2) (-1) .le none
                    (segment_range segFn ub um up ext z_start ((z_start + z_stop) / 2) 1 .ge
                      none st)).vol ((z_start + z_stop) / 2 - 1))
                  ((segment_range segFn ub um up ext z_stop ((z_start + z_stop) / 2) (-1) .le none
                    (segment_range segFn ub um up ext z_start ((z_start + z_stop) / 2) 1 .ge
                      none st)).vol ((z_start + z_stop) / 2 + 1)))],
              ?_, ?_, ?_, ?_, ?_, ?_⟩
            · simp only [hw2, hw1, List.append_assoc]
            · rw [List.nodup_append, List.nodup_append]
              refine ⟨⟨intRun_nodup (by norm_num) _ _, intRun_nodup (by norm_num) _ _, ?_⟩,
                by simp, ?_⟩
              · intro x hx1 hx2
                rw [intRun_one_mem] at hx1
                rw [intRun_negone_mem] at hx2
                omega
              · intro x hx
                simp only [List.mem_singleton]
                rcases List.mem_append.mp hx with hx' | hx'
                · rw [intRun_one_mem] at hx'
                  omega
                · rw [intRun_negone_mem] at hx'
                  omega
            · intro i
              simp only [List.mem_append, List.mem_singleton, intRun_one_mem,
                intRun_negone_mem]
              omega
            · intro i hi
              simp only [List.mem_append, List.mem_singleton, intRun_one_mem,
                intRun_negone_mem, not_or] at hi
              have hne : i ≠ (z_start + z_stop) / 2 := by omega
              simp only [Function.update_noteq hne]
              rw [hv2 i (by rw [intRun_negone_mem]; omega)]
              exact hv1 i (by rw [intRun_one_mem]; omega)
            · simp only [hcs2, hcs1, List.append_assoc]
            · intro c hc
              rcases List.mem_append.mp hc with hc' | hc'
              · rcases List.mem_append.mp hc' with hc'' | hc''
                · obtain ⟨hub, hum, hup, hext⟩ := hflag1 c hc''
                  have hs : c.slice ∈ intRun (z_start + 1) 1
                      ((z_start + z_stop) / 2 - z_start - 1).toNat := by
                    rw [← hmap1]
                    exact List.mem_map_of_mem SegCall.slice hc''
                  rw [intRun_one_mem] at hs
                  exact ⟨⟨by omega, by omega⟩, hub, hum, hup, hext⟩
                · obtain ⟨hub, hum, hup, hext⟩ := hflag2 c hc''
                  have hs : c.slice ∈ intRun (z_stop + -1) (-1)
                      (z_stop - (z_start + z_stop) / 2 - 1).toNat := by
                    rw [← hmap2]
                    exact List.mem_map_of_mem SegCall.slice hc''
                  rw [intRun_negone_mem] at hs
                  exact ⟨⟨by omega, by omega⟩, hub, hum, hup, hext⟩
              · simp only [List.mem_singleton] at hc'
                subst hc'
                exact ⟨⟨by show z_start < (z_start + z_stop) / 2; omega,
                  by show (z_start + z_stop) / 2 < z_stop; omega⟩, rfl, rfl, rfl, rfl⟩
          · rw [if_neg h6, if_neg h6]
            have hm1 : z_start + 1 ≤ (z_start + z_stop) / 2 := by omega
            have hm2 : (z_start + z_stop) / 2 + 2 ≤ z_stop := by omega
            obtain ⟨cApp1, hw1, hv1, hcs1, hmap1, hflag1⟩ :=
              segment_range_fwd_gt_spec segFn ub um up ext z_start ((z_start + z_stop) / 2)
                st (by omega)
            obtain ⟨cApp2, hw2, hv2, hcs2, hmap2, hflag2⟩ :=
              segment_range_bwd_le_spec segFn ub um up ext z_stop ((z_start + z_stop) / 2)
                (segment_range segFn ub um up ext z_start ((z_start + z_stop) / 2) 1 .gt none st)
                (by omega)
            refine ⟨intRun (z_start + 1) 1 ((z_start + z_stop) / 2 - z_start).toNat
                ++ intRun (z_stop + -1) (-1) (z_stop - (z_start + z_stop) / 2 - 1).toNat,
              cApp1 ++ cApp2, ?_, ?_, ?_, ?_, ?_, ?_⟩
            · rw [hw2, hw1]
              simp
            · rw [List.nodup_append]
              refine ⟨intRun_nodup (by norm_num) _ _, intRun_nodup (by norm_num) _ _, ?_⟩
              intro x hx1 hx2
              rw [intRun_one_mem] at hx1
              rw [intRun_negone_mem] at hx2
              omega
            · intro i
              simp only [List.mem_append, intRun_one_mem, intRun_negone_mem]
              omega
            · intro i hi
              simp only [List.mem_append, intRun_one_mem, intRun_negone_mem, not_or] at hi
              rw [hv2 i (by rw [intRun_negone_mem]; omega)]
              exact hv1 i (by rw [intRun_one_mem]; omega)
            · rw [hcs2, hcs1]
              simp
            · intro c hc
              rcases List.mem_append.mp hc with hc' | hc'
              · obtain ⟨hub, hum, hup, hext⟩ := hflag1 c hc'
                have hs : c.slice ∈ intRun (z_start + 1) 1
                    ((z_start + z_stop) / 2 - z_start).toNat := by
                  rw [← hmap1]
                  exact List.mem_map_of_mem SegCall.slice hc'
                rw [intRun_one_mem] at hs
                exact ⟨⟨by omega, by omega⟩, hub, hum, hup, hext⟩
              · obtain ⟨hub, hum, hup, hext⟩ := hflag2 c hc'
                have hs : c.slice ∈ intRun (z_stop + -1) (-1)
                    (z_stop - (z_start + z_stop) / 2 - 1).toNat := by
                  rw [← hmap2]
                  exact List.mem_map_of_mem SegCall.slice hc'
                rw [intRun_negone_mem] at hs
                exact ⟨⟨by omega, by omega⟩, hub, hum, hup, hext⟩

theorem foldl_min_of_le : ∀ (l : List Int) (a : Int), (∀ x ∈ l, a ≤ x) →
    l.foldl min a = a := by
  intro l
  induction l with
  | nil => intro a _; rfl
  | cons b l' ih =>
    intro a h
    simp only [List.foldl_cons]
    rw [min_eq_left (h b (by simp))]
    exact ih a (fun x hx => h x (by simp [hx]))

theorem le_foldl_max : ∀ (l : List Int) (a : Int), a ≤ l.foldl max a := by
  intro l
  induction l with
  | nil => intro a; simp
  | cons b l' ih =>
    intro a
    simp only [List.foldl_cons]
    exact le_trans (le_max_left a b) (ih (max a b))

theorem mem_le_foldl_max : ∀ (l : List Int) (a x : Int), x ∈ l → x ≤ l.foldl max a := by
  intro l
  induction l with
  | nil => intro a x hx; simp at hx
  | cons b l' ih =>
    intro a x hx
    rcases List.mem_cons.mp hx with rfl | hx'
    · simp only [List.foldl_cons]
      exact le_trans (le_max_right a x) (le_foldl_max l' (max a x))
    · exact ih (max a b) x hx'

theorem foldl_max_getLast : ∀ (rest : List Int) (s : Int),
    (s :: rest).Pairwise (· < ·) →
    (s :: rest).getLast? = some (rest.foldl max s) := by
  intro rest
  induction rest with
  | nil => intro s _; rfl
  | cons b rest' ih =>
    intro s hp
    have hsb : s < b := (List.pairwise_cons.mp hp).1 b (by simp)
    have hp' : (b :: rest').Pairwise (· < ·) := (List.pairwise_cons.mp hp).2
    rw [List.getLast?_cons_cons, ih b hp']
    simp only [List.foldl_cons]
    rw [max_eq_right (le_of_lt hsb)]

/-- Folding `fill_gap` over the consecutive pairs of a strictly increasing
slice list appends, exactly once each, indices strictly between consecutive
seeds: all are above the head, below some later seed, and none is a seed. -/
theorem gaps_fold_spec (segFn : SegCall → Mask) (ub um up : Bool) (ext : ℚ)
    (z0 z1 : Int) (sl su : Bool) :
    ∀ (rest : List Int) (a : Int) (st : SegState), (a :: rest).Pairwise (· < ·) →
    ∃ app cApp,
      (((a :: rest).zip rest).foldl (fill_gap segFn ub um up ext z0 z1 sl su) st).writes
        = st.writes ++ app ∧
      app.Nodup ∧
      (∀ i ∈ app, a < i ∧ (∃ v ∈ rest, i < v) ∧ i ∉ a :: rest) ∧
      (∀ i : Int, i ∉ app →
        (((a :: rest).zip rest).foldl (fill_gap segFn ub um up ext z0 z1 sl su) st).vol i
          = st.vol i) ∧
      (((a :: rest).zip rest).foldl (fill_gap segFn ub um up ext z0 z1 sl su) st).calls
        = st.calls ++ cApp ∧
      (∀ c ∈ cApp, (a < c.slice ∧ ∃ v ∈ rest, c.slice < v) ∧ c.use_box = ub ∧
        c.use_mask = um ∧ c.use_points = up ∧ c.box_extension = ext) := by
  intro rest
  induction rest with
  | nil =>
    intro a st _
    exact ⟨[], [], by simp, by simp, by simp, by simp, by simp, by simp⟩
  | cons b rest' ih =>
    intro a st hp
    have hab : a < b := (List.pairwise_cons.mp hp).1 b (by simp)
    have hp' : (b :: rest').Pairwise (· < ·) := (List.pairwise_cons.mp hp).2
    have hbr : ∀ x ∈ rest', b < x := (List.pairwise_cons.mp hp').1
    obtain ⟨app1, cApp1, hw1, hn1, hiff1, hv1, hcs1, hfl1⟩ :=
      fill_gap_spec segFn ub um up ext z0 z1 sl su st a b hab
    obtain ⟨app2, cApp2, hw2, hn2, hbd2, hv2, hcs2, hfl2⟩ :=
      ih b (fill_gap segFn ub um up ext z0 z1 sl su st (a, b)) hp'
    simp only [List.zip_cons_cons, List.foldl_cons]
    refine ⟨app1 ++ app2, cApp1 ++ cApp2, ?_, ?_, ?_, ?_, ?_, ?_⟩
    · rw [hw2, hw1, List.append_assoc]
    · rw [List.nodup_append]
      refine ⟨hn1, hn2, ?_⟩
      intro x hx1 hx2
      have h1 := (hiff1 x).mp hx1
      have h2 := (hbd2 x hx2).1
      omega
    · intro i hi
      rcases List.mem_append.mp hi with hi' | hi'
      · have h1 := (hiff1 i).mp hi'
        refine ⟨h1.1, ⟨b, by simp, h1.2⟩, ?_⟩
        simp only [List.mem_cons, not_or]
        refine ⟨by omega, by omega, ?_⟩
        intro hmem
        have := hbr i hmem
        omega
      · obtain ⟨hbi, ⟨v, hv, hiv⟩, hnot⟩ := hbd2 i hi'
        refine ⟨by omega, ⟨v, by simp [hv], hiv⟩, ?_⟩
        simp only [List.mem_cons, not_or]
        simp only [List.mem_cons, not_or] at hnot
        exact ⟨by omega, hnot.1, hnot.2⟩
    · intro i hi
      simp only [List.mem_append, not_or] at hi
      rw [hv2 i hi.2]
      exact hv1 i hi.1
    · rw [hcs2, hcs1, List.append_assoc]
    · intro c hc
      rcases List.mem_append.mp hc with hc' | hc'
      · obtain ⟨⟨hlo, hhi⟩, hub, hum, hup, hext⟩ := hfl1 c hc'
        exact ⟨⟨hlo, ⟨b, by simp, hhi⟩⟩, hub, hum, hup, hext⟩
      · obtain ⟨⟨hlo, ⟨v, hv, hcv⟩⟩, hub, hum, hup, hext⟩ := hfl2 c hc'
        exact ⟨⟨by omega, ⟨v, by simp [hv], hcv⟩⟩, hub, hum, hup, hext⟩

/-- Decomposition of one `segment_mask_in_volume` run on a strictly increasing
nonempty slice list with a valid projection: the write and call traces split
into the downward walk (below the minimum seed `s`), the upward walk (above
the maximum seed), and the gap fills (strictly between seeds, never on one);
each part is duplicate-free and bounded, the walks run exactly under their
guards, the volume is unchanged off the writes, and every call carries the
flag triple determined by the projection. -/
theorem segment_mask_in_volume_master (segFn : SegCall → Mask) (vol0 : Int → Mask)
    (n : Nat) (s : Int) (rest : List Int) (cfg : Config)
    (hproj : cfg.projection = "mask" ∨ cfg.projection = "bounding_box" ∨
      cfg.projection = "points")
    (hsort : (s :: rest).Pairwise (· < ·)) :
    ∃ res, segment_mask_in_volume segFn vol0 n (s :: rest) cfg = some res ∧
    ∃ w1 w2 w3 c1 c2 c3,
      res.writes = (w1 ++ w2) ++ w3 ∧
      res.calls = (c1 ++ c2) ++ c3 ∧
      w1.Nodup ∧ w2.Nodup ∧ w3.Nodup ∧
      (∀ w ∈ w1, 0 ≤ w ∧ w < s) ∧
      (∀ w ∈ w2, rest.foldl max s < w ∧ w ≤ (n : Int) - 1) ∧
      (∀ i ∈ w3, s < i ∧ i < rest.foldl max s ∧ i ∉ s :: rest) ∧
      (∀ c ∈ c1, 0 ≤ c.slice ∧ c.slice < s) ∧
      (∀ c ∈ c2, rest.foldl max s < c.slice ∧ c.slice ≤ (n : Int) - 1) ∧
      (∀ c ∈ c3, s < c.slice ∧ c.slice < rest.foldl max s) ∧
      (¬(0 < s ∧ cfg.stop_lower = false) → w1 = [] ∧ c1 = []) ∧
      (¬(rest.foldl max s < (n : Int) - 1 ∧ cfg.stop_upper = false) → w2 = [] ∧ c2 = []) ∧
      ((0 < s ∧ cfg.stop_lower = false) → ∃ c ∈ c1, c.slice = s - 1) ∧
      ((rest.foldl max s < (n : Int) - 1 ∧ cfg.stop_upper = false) →
        ∃ c ∈ c2, c.slice = rest.foldl max s + 1) ∧
      (∀ i : Int, i ∉ w1 → i ∉ w2 → i ∉ w3 → res.vol i = vol0 i) ∧
      (∀ c ∈ res.calls,
        c.use_box = (if cfg.projection = "mask" then ((true, true, false) : Bool × Bool × Bool)
          else if cfg.projection = "points" then (true, true, true)
          else (true, false, false)).1 ∧
        c.use_mask = (if cfg.projection = "mask" then ((true, true, false) : Bool × Bool × Bool)
          else if cfg.projection = "points" then (true, true, true)
          else (true, false, false)).2.1 ∧
        c.use_points = (if cfg.projection = "mask" then ((true, true, false) : Bool × Bool × Bool)
          else if cfg.projection = "points" then (true, true, true)
          else (true, false, false)).2.2 ∧
        c.box_extension = cfg.box_extension) := by
  have hmax_ge : s ≤ rest.foldl max s := le_foldl_max rest s
  have hz0 : rest.foldl min s = s :=
    foldl_min_of_le rest s
      (fun x hx => le_of_lt ((List.pairwise_cons.mp hsort).1 x hx))
  have hlt0 : ∀ y : Int, Criterion.eval .lt y 0 = false → (0 : Int) ≤ y := by
    intro y hy
    simp only [Criterion.eval, decide_eq_false_iff_not] at hy
    omega
  have hgtn : ∀ y : Int, Criterion.eval .gt y ((n : Int) - 1) = false → y ≤ (n : Int) - 1 := by
    intro y hy
    simp only [Criterion.eval, decide_eq_false_iff_not] at hy
    omega
  simp only [segment_mask_in_volume, List.tail_cons]
  rw [if_pos hproj, hz0]
  generalize hub : (if cfg.projection = "mask" then ((true, true, false) : Bool × Bool × Bool)
    else if cfg.projection = "points" then (true, true, true)
    else (true, false, false)).1 = ub
  generalize hum : (if cfg.projection = "mask" then ((true, true, false) : Bool × Bool × Bool)
    else if cfg.projection = "points" then (true, true, true)
    else (true, false, false)).2.1 = um
  generalize hup : (if cfg.projection = "mask" then ((true, true, false) : Bool × Bool × Bool)
    else if cfg.projection = "points" then (true, true, true)
    else (true, false, false)).2.2 = up
  set t1 : SegState := if 0 < s ∧ cfg.stop_lower = false then
      segment_range segFn ub um up cfg.box_extension s 0 (-1) .lt
        (some cfg.iou_threshold) ⟨vol0, [], []⟩
    else (⟨vol0, [], []⟩ : SegState) with ht1
  set t2 : SegState := if rest.foldl max s < (n : Int) - 1 ∧ cfg.stop_upper = false then
      segment_range segFn ub um up cfg.box_extension (rest.foldl max s) ((n : Int) - 1) 1 .gt
        (some cfg.iou_threshold) t1
    else t1 with ht2
  set t3 : SegState := if s ≠ rest.foldl max s then
      ((s :: rest).zip rest).foldl
        (fill_gap segFn ub um up cfg.box_extension s (rest.foldl max s)
          cfg.stop_lower cfg.stop_upper) t2
    else t2 with ht3
  have H1 : ∃ w1 c1,
      t1.writes = w1 ∧ t1.calls = c1 ∧
      (∀ i : Int, i ∉ w1 → t1.vol i = vol0 i) ∧
      w1.Nodup ∧
      (∀ w ∈ w1, 0 ≤ w ∧ w < s) ∧
      (∀ c ∈ c1, (0 ≤ c.slice ∧ c.slice < s) ∧ c.use_box = ub ∧ c.use_mask = um ∧
        c.use_points = up ∧ c.box_extension = cfg.box_extension) ∧
      (¬(0 < s ∧ cfg.stop_lower = false) → w1 = [] ∧ c1 = []) ∧
      ((0 < s ∧ cfg.stop_lower = false) → ∃ c ∈ c1, c.slice = s - 1) := by
    by_cases hdown : 0 < s ∧ cfg.stop_lower = false
    · rw [ht1, if_pos hdown]
      simp only [segment_range]
      obtain ⟨k, cApp, hw, hv, hcs, hsl⟩ := segment_range_loop_shape segFn ub um up
        cfg.box_extension (some cfg.iou_threshold) 0 (-1) .lt
        (((0 : Int) - s).natAbs + 1) (s + -1) ⟨vol0, [], []⟩
      obtain ⟨hbw, hbc⟩ := segment_range_loop_down_bound segFn ub um up
        cfg.box_extension (some cfg.iou_threshold) 0 .lt 0 hlt0
        (((0 : Int) - s).natAbs + 1) (s + -1) ⟨vol0, [], []⟩ (by omega)
      have hfc := segment_range_loop_first_call segFn ub um up cfg.box_extension
        (some cfg.iou_threshold) 0 (-1) .lt (((0 : Int) - s).natAbs) (s + -1) ⟨vol0, [], []⟩
      refine ⟨intRun (s + -1) (-1) k, cApp, by simpa using hw, by simpa using hcs,
        ?_, intRun_nodup (by norm_num) _ _, ?_, ?_, fun h => absurd hdown h, ?_⟩
      · intro i hi
        exact hv i hi
      · intro w hwm
        have hup' := intRun_negone_mem.mp hwm
        have hmem : w ∈ (segment_range_loop segFn ub um up cfg.box_extension
            (some cfg.iou_threshold) 0 (-1) .lt (((0 : Int) - s).natAbs + 1) (s + -1)
            ⟨vol0, [], []⟩).writes := by
          rw [hw]
          exact List.mem_append_right _ hwm
        rcases hbw w hmem with habs | hb
        · simp at habs
        · exact ⟨hb.1, by omega⟩
      · intro c hcm
        obtain ⟨hsl', hub', hum', hup', hext'⟩ := hsl c hcm
        have hmem : c ∈ (segment_range_loop segFn ub um up cfg.box_extension
            (some cfg.iou_threshold) 0 (-1) .lt (((0 : Int) - s).natAbs + 1) (s + -1)
            ⟨vol0, [], []⟩).calls := by
          rw [hcs]
          exact List.mem_append_right _ hcm
        rcases hbc c hmem with habs | hb
        · simp at habs
        · exact ⟨⟨hb.1, by omega⟩, hub', hum', hup', hext'⟩
      · intro _
        refine ⟨mkCall ub um up cfg.box_extension (s + -1)
          ((⟨vol0, [], []⟩ : SegState).vol (s + -1 - -1)), ?_, by show s + -1 = s - 1; ring⟩
        have := hfc
        rw [hcs] at this
        simpa using this
    · rw [ht1, if_neg hdown]
      exact ⟨[], [], rfl, rfl, fun i _ => rfl, by simp, by simp, by simp,
        fun _ => ⟨rfl, rfl⟩, fun h => absurd h hdown⟩
  obtain ⟨w1, c1, hw1, hc1, hv1, hn1, hb1, hcb1, he1, hx1⟩ := H1
  have H2 : ∃ w2 c2,
      t2.writes = t1.writes ++ w2 ∧ t2.calls = t1.calls ++ c2 ∧
      (∀ i : Int, i ∉ w2 → t2.vol i = t1.vol i) ∧
      w2.Nodup ∧
      (∀ w ∈ w2, rest.foldl max s < w ∧ w ≤ (n : Int) - 1) ∧
      (∀ c ∈ c2, (rest.foldl max s < c.slice ∧ c.slice ≤ (n : Int) - 1) ∧ c.use_box = ub ∧
        c.use_mask = um ∧ c.use_points = up ∧ c.box_extension = cfg.box_extension) ∧
      (¬(rest.foldl max s < (n : Int) - 1 ∧ cfg.stop_upper = false) → w2 = [] ∧ c2 = []) ∧
      ((rest.foldl max s < (n : Int) - 1 ∧ cfg.stop_upper = false) →
        ∃ c ∈ c2, c.slice = rest.foldl max s + 1) := by
    by_cases hupg : rest.foldl max s < (n : Int) - 1 ∧ cfg.stop_upper = false
    · rw [ht2, if_pos hupg]
      simp only [segment_range]
      obtain ⟨k, cApp, hw, hv, hcs, hsl⟩ := segment_range_loop_shape segFn ub um up
        cfg.box_extension (some cfg.iou_threshold) ((n : Int) - 1) 1 .gt
        ((((n : Int) - 1) - rest.foldl max s).natAbs + 1) (rest.foldl max s + 1) t1
      obtain ⟨hbw, hbc⟩ := segment_range_loop_up_bound segFn ub um up
        cfg.box_extension (some cfg.iou_threshold) ((n : Int) - 1) .gt ((n : Int) - 1) hgtn
        ((((n : Int) - 1) - rest.foldl max s).natAbs + 1) (rest.foldl max s + 1) t1
        (by omega)
      have hfc := segment_range_loop_first_call segFn ub um up cfg.box_extension
        (some cfg.iou_threshold) ((n : Int) - 1) 1 .gt
        ((((n : Int) - 1) - rest.foldl max s).natAbs) (rest.foldl max s + 1) t1
      refine ⟨intRun (rest.foldl max s + 1) 1 k, cApp, hw, hcs, hv,
        intRun_nodup (by norm_num) _ _, ?_, ?_, fun h => absurd hupg h, ?_⟩
      · intro w hwm
        have hlo := intRun_one_mem.mp hwm
        have hmem : w ∈ (segment_range_loop segFn ub um up cfg.box_extension
            (some cfg.iou_threshold) ((n : Int) - 1) 1 .gt
            ((((n : Int) - 1) - rest.foldl max s).natAbs + 1) (rest.foldl max s + 1)
            t1).writes := by
          rw [hw]
          exact List.mem_append_right _ hwm
        rcases hbw w hmem with habs | hb
        · rw [hw1] at habs
          have := hb1 w habs
          omega
        · exact ⟨by omega, hb.2⟩
      · intro c hcm
        obtain ⟨hsl', hub', hum', hup', hext'⟩ := hsl c hcm
        have hlo := intRun_one_mem.mp hsl'
        have hmem : c ∈ (segment_range_loop segFn ub um up cfg.box_extension
            (some cfg.iou_threshold) ((n : Int) - 1) 1 .gt
            ((((n : Int) - 1) - rest.foldl max s).natAbs + 1) (rest.foldl max s + 1)
            t1).calls := by
          rw [hcs]
          exact List.mem_append_right _ hcm
        rcases hbc c hmem with habs | hb
        · rw [hc1] at habs
          have := (hcb1 c habs).1
          omega
        · exact ⟨⟨by omega, hb.2⟩, hub', hum', hup', hext'⟩
      · intro _
        refine ⟨mkCall ub um up cfg.box_extension (rest.foldl max s + 1)
          (t1.vol (rest.foldl max s + 1 - 1)), ?_, rfl⟩
        have := hfc
        rw [hcs] at this
        rcases List.mem_append.mp this with habs | hok
        · rw [hc1] at habs
          have := (hcb1 _ habs).1
          simp only [mkCall] at this
          omega
        · exact hok
    · rw [ht2, if_neg hupg]
      exact ⟨[], [], by simp, by simp, fun i _ => rfl, by simp, by simp, by simp,
        fun _ => ⟨rfl, rfl⟩, fun h => absurd h hupg⟩
  obtain ⟨w2, c2, hw2, hc2, hv2, hn2, hb2, hcb2, he2, hx2⟩ := H2
  have H3 : ∃ w3 c3,
      t3.writes = t2.writes ++ w3 ∧ t3.calls = t2.calls ++ c3 ∧
      (∀ i : Int, i ∉ w3 → t3.vol i = t2.vol i) ∧
      w3.Nodup ∧
      (∀ i ∈ w3, s < i ∧ i < rest.foldl max s ∧ i ∉ s :: rest) ∧
      (∀ c ∈ c3, (s < c.slice ∧ c.slice < rest.foldl max s) ∧ c.use_box = ub ∧
        c.use_mask = um ∧ c.use_points = up ∧ c.box_extension = cfg.box_extension) := by
    by_cases hgap : s ≠ rest.foldl max s
    · rw [ht3, if_pos hgap]
      obtain ⟨app, cApp, hw, hn, hbd, hv, hcs, hfl⟩ := gaps_fold_spec segFn ub um up
        cfg.box_extension s (rest.foldl max s) cfg.stop_lower cfg.stop_upper rest s t2 hsort
      refine ⟨app, cApp, hw, hcs, hv, hn, ?_, ?_⟩
      · intro i him
        obtain ⟨hsi, ⟨v, hvm, hiv⟩, hnm⟩ := hbd i him
        exact ⟨hsi, lt_of_lt_of_le hiv (mem_le_foldl_max rest s v hvm), hnm⟩
      · intro c hcm
        obtain ⟨⟨hsc, ⟨v, hvm, hcv⟩⟩, hub', hum', hup', hext'⟩ := hfl c hcm
        exact ⟨⟨hsc, lt_of_lt_of_le hcv (mem_le_foldl_max rest s v hvm)⟩,
          hub', hum', hup', hext'⟩
    · rw [ht3, if_neg hgap]
      exact ⟨[], [], by simp, by simp, fun i _ => rfl, by simp, by simp, by simp⟩
  obtain ⟨w3, c3, hw3, hc3, hv3, hn3, hb3, hcb3⟩ := H3
  refine ⟨t3, rfl, w1, w2, w3, c1, c2, c3, ?_, ?_, hn1, hn2, hn3, hb1, hb2, hb3,
    ?_, ?_, ?_, he1, he2, hx1, hx2, ?_, ?_⟩
  · rw [hw3, hw2, hw1]
  · rw [hc3, hc2, hc1]
  · intro c hcm
    exact (hcb1 c hcm).1
  · intro c hcm
    exact (hcb2 c hcm).1
  · intro c hcm
    exact (hcb3 c hcm).1
  · intro i hi1 hi2 hi3
    rw [hv3 i hi3, hv2 i hi2]
    exact hv1 i hi1
  · intro c hcm
    rw [hc3, hc2, hc1] at hcm
    rcases List.mem_append.mp hcm with hcc | hcc
    · rcases List.mem_append.mp hcc with hcc' | hcc'
      · obtain ⟨_, h1, h2, h3, h4⟩ := hcb1 c hcc'
        exact ⟨h1, h2, h3, h4⟩
      · obtain ⟨_, h1, h2, h3, h4⟩ := hcb2 c hcc'
        exact ⟨h1, h2, h3, h4⟩
    · obtain ⟨_, h1, h2, h3, h4⟩ := hcb3 c hcc
      exact ⟨h1, h2, h3, h4⟩

/-- C1: for every pair of consecutive segmented slices `(z_start, z_stop)`
with `z_start < z_stop` (as consecutive entries of a strictly increasing
`segmented_slices` are), the gap-filling phase writes every interior slice
index in the open interval `(z_start, z_stop)` exactly once — no interior
index twice, none unwritten — across all of its cases (adjacent slices,
lower/upper stop boundary, gap of 2, even and odd larger gaps). -/
theorem C1_gap_interior_written_exactly_once (segFn : SegCall → Mask)
    (ub um up : Bool) (ext : ℚ) (z0 z1 : Int) (sl su : Bool) (st : SegState)
    (z_start z_stop : Int) (h : z_start < z_stop) :
    ∃ app,
      (fill_gap segFn ub um up ext z0 z1 sl su st (z_start, z_stop)).writes
        = st.writes ++ app ∧
      app.Nodup ∧
      (∀ i : Int, i ∈ app ↔ z_start < i ∧ i < z_stop) := by
  obtain ⟨app, _, hw, hn, hiff, _, _, _⟩ :=
    fill_gap_spec segFn ub um up ext z0 z1 sl su st z_start z_stop h
  exact ⟨app, hw, hn, hiff⟩

/-- Witness for C1 at the concrete odd gap `(0, 5)`. -/
theorem C1_witness :
    ∃ app,
      (fill_gap (fun _ => ([] : Mask)) true true false 0 0 9 false false
        ⟨fun _ => [], [], []⟩ ((0 : Int), 5)).writes
        = (⟨fun _ => [], [], []⟩ : SegState).writes ++ app ∧
      app.Nodup ∧
      (∀ i : Int, i ∈ app ↔ (0 : Int) < i ∧ i < 5) :=
  C1_gap_interior_written_exactly_once (fun _ => ([] : Mask)) true true false 0 0 9
    false false ⟨fun _ => [], [], []⟩ 0 5 (by decide)

/-- C2 counterexample: for the even gap `(0, 4)` (`gapSize = 4`, midpoint
`z_mid = 2`) the forward walk of the bisection case — `segment_range` with the
criterion the source selects for this parity — does not write the midpoint
slice 2 (its writes are `[1]`), contradicting the claim that the forward walk
reaches `z_mid` inclusively when the gap size is even. -/
theorem C2_counterexample :
    ((2 : Int) ∉ (segment_range (fun _ => ([] : Mask)) true true false 0 0 2 1
      (if ((4 : Int) - 0) % 2 = 0 then Criterion.ge else Criterion.gt) none
      ⟨fun _ => [], [], []⟩).writes) ∧
    (fill_gap (fun _ => ([] : Mask)) true true false 0 0 9 false false
      ⟨fun _ => [], [], []⟩ ((0 : Int), 4)).writes = [1, 3, 2] := by
  refine ⟨by decide, by decide⟩

/-- C2 amended: in the bisection case the forward walk from `z_start` reaches
the midpoint `z_mid = (z_start + z_stop) // 2` inclusively (writes `z_mid`)
when the gap size is odd, and stops one slice short (last write `z_mid - 1`)
when the gap size is even. -/
theorem C2_amended_forward_walk_parity (segFn : SegCall → Mask) (ub um up : Bool)
    (ext : ℚ) (st : SegState) (z_start z_stop : Int) (h : z_start + 3 ≤ z_stop) :
    ∃ app,
      (segment_range segFn ub um up ext z_start ((z_start + z_stop).fdiv 2) 1
        (if (z_stop - z_start) % 2 = 0 then Criterion.ge else Criterion.gt) none
        st).writes = st.writes ++ app ∧
      ((z_stop - z_start) % 2 = 1 →
        ∀ i : Int, i ∈ app ↔ z_start + 1 ≤ i ∧ i ≤ (z_start + z_stop).fdiv 2) ∧
      ((z_stop - z_start) % 2 = 0 →
        ∀ i : Int, i ∈ app ↔ z_start + 1 ≤ i ∧ i ≤ (z_start + z_stop).fdiv 2 - 1) := by
  have hmid : (z_start + z_stop).fdiv 2 = (z_start + z_stop) / 2 :=
    Int.fdiv_eq_ediv _ (by omega)
  rw [hmid]
  by_cases h6 : (z_stop - z_start) % 2 = 0
  · rw [if_pos h6]
    obtain ⟨cApp, hw, _, _, _, _⟩ := segment_range_fwd_ge_spec segFn ub um up ext
      z_start ((z_start + z_stop) / 2) st (by omega)
    refine ⟨_, hw, ?_, ?_⟩
    · intro hodd
      exfalso
      omega
    · intro _ i
      rw [intRun_one_mem]
      omega
  · rw [if_neg h6]
    obtain ⟨cApp, hw, _, _, _, _⟩ := segment_range_fwd_gt_spec segFn ub um up ext
      z_start ((z_start + z_stop) / 2) st (by omega)
    refine ⟨_, hw, ?_, ?_⟩
    · intro _ i
      rw [intRun_one_mem]
      omega
    · intro heven
      exfalso
      omega

/-- Witness for C2 amended at the odd gap `(0, 5)` and the even gap `(0, 6)`. -/
theorem C2_amended_witness :
    (∃ app,
      (segment_range (fun _ => ([] : Mask)) true true false 0 0
        (((0 : Int) + 5).fdiv 2) 1
        (if ((5 : Int) - 0) % 2 = 0 then Criterion.ge else Criterion.gt) none
        ⟨fun _ => [], [], []⟩).writes
        = (⟨fun _ => [], [], []⟩ : SegState).writes ++ app ∧
      (((5 : Int) - 0) % 2 = 1 →
        ∀ i : Int, i ∈ app ↔ (0 : Int) + 1 ≤ i ∧ i ≤ ((0 : Int) + 5).fdiv 2) ∧
      (((5 : Int) - 0) % 2 = 0 →
        ∀ i : Int, i ∈ app ↔ (0 : Int) + 1 ≤ i ∧ i ≤ ((0 : Int) + 5).fdiv 2 - 1)) :=
  C2_amended_forward_walk_parity (fun _ => ([] : Mask)) true true false 0
    ⟨fun _ => [], [], []⟩ 0 5 (by decide)

/-- C3 counterexample: with `stop_lower` set and `z_start = z0 = 0`, the gap
`(0, 3)` is filled with writes `[2, 1]` — the first written slice is
`z_stop - 1 = 2`, not `z_start + 1 = 1`, so the walk proceeds backward from
`z_stop`, contradicting the claim that it walks forward from `z_start`. -/
theorem C3_counterexample :
    (fill_gap (fun _ => ([] : Mask)) true true false 0 0 9 true false
      ⟨fun _ => [], [], []⟩ ((0 : Int), 3)).writes = [2, 1] ∧
    (fill_gap (fun _ => ([] : Mask)) true true false 0 0 9 true false
      ⟨fun _ => [], [], []⟩ ((0 : Int), 3)).writes.head? ≠ some 1 := by
  refine ⟨by decide, by decide⟩

/-- C3 amended: when `z_start` is the global lower stop boundary
(`z_start = z0` and `stop_lower`), the gap is filled by walking backward only,
from `z_stop` toward `z_start` (writes `z_stop - 1, z_stop - 2, ...,
z_start + 1` in that order); symmetrically, when that case does not apply and
`z_stop` is the global upper stop boundary (`z_stop = z1` and `stop_upper`),
the gap is filled by walking forward only, from `z_start` toward `z_stop`
(writes `z_start + 1, ..., z_stop - 1` in that order). -/
theorem C3_amended_stop_boundary_direction (segFn : SegCall → Mask)
    (ub um up : Bool) (ext : ℚ) (z0 z1 : Int) (sl su : Bool) (st : SegState)
    (z_start z_stop : Int) (h : z_start < z_stop) (hne : z_stop - z_start ≠ 1) :
    ((z_start = z0 ∧ sl = true) →
      (fill_gap segFn ub um up ext z0 z1 sl su st (z_start, z_stop)).writes
        = st.writes ++ intRun (z_stop + -1) (-1) (z_stop - z_start - 1).toNat) ∧
    (¬(z_start = z0 ∧ sl = true) → (z_stop = z1 ∧ su = true) →
      (fill_gap segFn ub um up ext z0 z1 sl su st (z_start, z_stop)).writes
        = st.writes ++ intRun (z_start + 1) 1 (z_stop - z_start - 1).toNat) := by
  constructor
  · intro h2
    simp only [fill_gap]
    rw [if_neg (by omega : ¬(z_stop - z_start = 1)), if_pos h2]
    obtain ⟨cApp, hw, _, _, _, _⟩ :=
      segment_range_bwd_le_spec segFn ub um up ext z_stop z_start st (by omega)
    exact hw
  · intro h2 h3
    simp only [fill_gap]
    rw [if_neg (by omega : ¬(z_stop - z_start = 1)), if_neg h2, if_pos h3]
    obtain ⟨cApp, hw, _, _, _, _⟩ :=
      segment_range_fwd_ge_spec segFn ub um up ext z_start z_stop st (by omega)
    exact hw

/-- Witness for C3 amended at the gap `(0, 3)` with `z0 = 0`, `z1 = 3`. -/
theorem C3_amended_witness :
    (((0 : Int) = 0 ∧ true = true) →
      (fill_gap (fun _ => ([] : Mask)) true true false 0 0 3 true false
        ⟨fun _ => [], [], []⟩ ((0 : Int), 3)).writes
        = (⟨fun _ => [], [], []⟩ : SegState).writes
          ++ intRun ((3 : Int) + -1) (-1) ((3 : Int) - 0 - 1).toNat) ∧
    (¬((0 : Int) = 0 ∧ true = true) → ((3 : Int) = 3 ∧ false = true) →
      (fill_gap (fun _ => ([] : Mask)) true true false 0 0 3 true false
        ⟨fun _ => [], [], []⟩ ((0 : Int), 3)).writes
        = (⟨fun _ => [], [], []⟩ : SegState).writes
          ++ intRun ((0 : Int) + 1) 1 ((3 : Int) - 0 - 1).toNat) :=
  C3_amended_stop_boundary_direction (fun _ => ([] : Mask)) true true false 0 0 3
    true false ⟨fun _ => [], [], []⟩ 0 3 (by decide) (by decide)

/-- C4: in a gated range walk, at each step the IoU between the previous
slice's mask and the freshly segmented candidate is computed; if it is below
the threshold the walk halts immediately — the candidate is not written, the
volume and the write trace are exactly as before the step, only the call is
recorded; if it is at or above the threshold the candidate is written at the
current slice (and stays there) and the walk continues. -/
theorem C4_iou_gate_halts_or_writes (segFn : SegCall → Mask) (ub um up : Bool)
    (ext : ℚ) (t : ℚ) (z_stop inc : Int) (crit : Criterion) (f : Nat) (z : Int)
    (st : SegState) (hinc : inc ≠ 0) :
    (compute_iou (st.vol (z - inc))
        (segFn (mkCall ub um up ext z (st.vol (z - inc)))) < t →
      (segment_range_loop segFn ub um up ext (some t) z_stop inc crit (f + 1) z
        st).writes = st.writes ∧
      (segment_range_loop segFn ub um up ext (some t) z_stop inc crit (f + 1) z
        st).vol = st.vol ∧
      (segment_range_loop segFn ub um up ext (some t) z_stop inc crit (f + 1) z
        st).calls = st.calls ++ [mkCall ub um up ext z (st.vol (z - inc))]) ∧
    (t ≤ compute_iou (st.vol (z - inc))
        (segFn (mkCall ub um up ext z (st.vol (z - inc)))) →
      (segment_range_loop segFn ub um up ext (some t) z_stop inc crit (f + 1) z
        st).vol z = segFn (mkCall ub um up ext z (st.vol (z - inc))) ∧
      ∃ app, (segment_range_loop segFn ub um up ext (some t) z_stop inc crit
        (f + 1) z st).writes = (st.writes ++ [z]) ++ app) := by
  constructor
  · intro hlt
    simp only [segment_range_loop]
    rw [if_pos (by simp [gateHalts, hlt])]
    exact ⟨rfl, rfl, rfl⟩
  · intro hge
    simp only [segment_range_loop]
    rw [if_neg (by simp [gateHalts, not_lt.mpr hge])]
    by_cases hc : crit.eval (z + inc) z_stop = true
    · rw [if_pos hc]
      refine ⟨Function.update_same _ _ _, [], by simp⟩
    · rw [if_neg hc]
      obtain ⟨k, cApp, hw, hv, _, _⟩ := segment_range_loop_shape segFn ub um up ext
        (some t) z_stop inc crit f (z + inc)
        ⟨Function.update st.vol z (segFn (mkCall ub um up ext z (st.vol (z - inc)))),
          st.writes ++ [z], st.calls ++ [mkCall ub um up ext z (st.vol (z - inc))]⟩
      have hznot : z ∉ intRun (z + inc) inc k := by
        intro hmem
        rcases intRun_mem.mp hmem with ⟨j, _, heq⟩
        have h1 : ((j : Int) + 1) * inc = 0 := by linarith
        rcases mul_eq_zero.mp h1 with h2 | h2
        · omega
        · exact hinc h2
      refine ⟨?_, intRun (z + inc) inc k, hw⟩
      rw [hv z hznot]
      exact Function.update_same _ _ _

/-- Witness for C4 at a concrete gated step (`inc = 1`). -/
theorem C4_witness :
    (compute_iou ((⟨fun _ => [true], [], []⟩ : SegState).vol ((1 : Int) - 1))
        ((fun _ => ([true] : Mask)) (mkCall true true false 0 1
          ((⟨fun _ => [true], [], []⟩ : SegState).vol ((1 : Int) - 1)))) < (1 : ℚ) / 2 →
      (segment_range_loop (fun _ => ([true] : Mask)) true true false 0
        (some ((1 : ℚ) / 2)) 5 1 Criterion.gt (3 + 1) 1
        ⟨fun _ => [true], [], []⟩).writes = (⟨fun _ => [true], [], []⟩ : SegState).writes ∧
      (segment_range_loop (fun _ => ([true] : Mask)) true true false 0
        (some ((1 : ℚ) / 2)) 5 1 Criterion.gt (3 + 1) 1
        ⟨fun _ => [true], [], []⟩).vol = (⟨fun _ => [true], [], []⟩ : SegState).vol ∧
      (segment_range_loop (fun _ => ([true] : Mask)) true true false 0
        (some ((1 : ℚ) / 2)) 5 1 Criterion.gt (3 + 1) 1
        ⟨fun _ => [true], [], []⟩).calls = (⟨fun _ => [true], [], []⟩ : SegState).calls
          ++ [mkCall true true false 0 1
            ((⟨fun _ => [true], [], []⟩ : SegState).vol ((1 : Int) - 1))]) ∧
    ((1 : ℚ) / 2 ≤ compute_iou ((⟨fun _ => [true], [], []⟩ : SegState).vol ((1 : Int) - 1))
        ((fun _ => ([true] : Mask)) (mkCall true true false 0 1
          ((⟨fun _ => [true], [], []⟩ : SegState).vol ((1 : Int) - 1)))) →
      (segment_range_loop (fun _ => ([true] : Mask)) true true false 0
        (some ((1 : ℚ) / 2)) 5 1 Criterion.gt (3 + 1) 1
        ⟨fun _ => [true], [], []⟩).vol 1 = (fun _ => ([true] : Mask))
          (mkCall true true false 0 1
            ((⟨fun _ => [true], [], []⟩ : SegState).vol ((1 : Int) - 1))) ∧
      ∃ app, (segment_range_loop (fun _ => ([true] : Mask)) true true false 0
        (some ((1 : ℚ) / 2)) 5 1 Criterion.gt (3 + 1) 1
        ⟨fun _ => [true], [], []⟩).writes
        = ((⟨fun _ => [true], [], []⟩ : SegState).writes ++ [1]) ++ app) :=
  C4_iou_gate_halts_or_writes (fun _ => ([true] : Mask)) true true false 0
    ((1 : ℚ) / 2) 5 1 Criterion.gt 3 1 ⟨fun _ => [true], [], []⟩ (by decide)

/-- C5 counterexample: a configuration with `iou_threshold = 2` (outside
`(0, 1]`) and `box_extension = -1` (negative) but a valid projection mode is
accepted — `segment_mask_in_volume` runs and returns a result instead of
failing fast, contradicting the claim that such configurations are rejected
at the start. -/
theorem C5_counterexample :
    (segment_mask_in_volume (fun _ => ([] : Mask)) (fun _ => []) 3 [1]
      ⟨false, false, 2, "mask", -1⟩).isSome = true := by
  decide

/-- C5 amended: only an unknown projection mode is rejected at the start of
`segment_mask_in_volume` (the `assert`); `iou_threshold` and `box_extension`
are not validated, so for a nonempty `segmented_slices` the call is rejected
exactly when the projection mode is unknown, whatever the other settings. -/
theorem C5_amended_only_projection_validated (segFn : SegCall → Mask)
    (vol0 : Int → Mask) (n : Nat) (ss : List Int) (cfg : Config) (hne : ss ≠ []) :
    segment_mask_in_volume segFn vol0 n ss cfg = none ↔
      ¬(cfg.projection = "mask" ∨ cfg.projection = "bounding_box" ∨
        cfg.projection = "points") := by
  rcases ss with _ | ⟨s, rest⟩
  · exact absurd rfl hne
  · by_cases hp : cfg.projection = "mask" ∨ cfg.projection = "bounding_box" ∨
      cfg.projection = "points"
    · simp only [segment_mask_in_volume]
      rw [if_pos hp]
      simp [hp]
    · simp only [segment_mask_in_volume]
      rw [if_neg hp]
      simp [hp]

/-- Witness for C5 amended: with the invalid threshold and negative box
extension of the counterexample, the call is still not rejected. -/
theorem C5_amended_witness :
    (segment_mask_in_volume (fun _ => ([] : Mask)) (fun _ => []) 3 [1]
      ⟨false, false, 2, "mask", -1⟩ = none ↔
      ¬((⟨false, false, 2, "mask", -1⟩ : Config).projection = "mask" ∨
        (⟨false, false, 2, "mask", -1⟩ : Config).projection = "bounding_box" ∨
        (⟨false, false, 2, "mask", -1⟩ : Config).projection = "points")) :=
  C5_amended_only_projection_validated (fun _ => ([] : Mask)) (fun _ => []) 3 [1]
    ⟨false, false, 2, "mask", -1⟩ (by decide)

theorem foldl_max_le : ∀ (l : List Int) (a b : Int), a ≤ b → (∀ x ∈ l, x ≤ b) →
    l.foldl max a ≤ b := by
  intro l
  induction l with
  | nil => intro a b h _; simpa using h
  | cons c l' ih =>
    intro a b h hx
    simp only [List.foldl_cons]
    exact ih (max a c) b (max_le h (hx c (by simp))) (fun x hm => hx x (by simp [hm]))

/-- C6: on a strictly increasing in-bounds slice list, a `segment_mask_in_volume`
run never writes outside `[0, lastSlice]`, and with `stop_lower` set it never
writes below the lowest seed slice `s`. -/
theorem C6_range_walks_in_bounds (segFn : SegCall → Mask) (vol0 : Int → Mask)
    (n : Nat) (s : Int) (rest : List Int) (cfg : Config) (res : SegState)
    (hsort : (s :: rest).Pairwise (· < ·))
    (hlo : 0 ≤ s) (hhi : ∀ x ∈ s :: rest, x ≤ (n : Int) - 1)
    (hres : segment_mask_in_volume segFn vol0 n (s :: rest) cfg = some res) :
    (∀ w ∈ res.writes, 0 ≤ w ∧ w ≤ (n : Int) - 1) ∧
    (cfg.stop_lower = true → ∀ w ∈ res.writes, s ≤ w) := by
  have hproj : cfg.projection = "mask" ∨ cfg.projection = "bounding_box" ∨
      cfg.projection = "points" := by
    by_contra hp
    simp only [segment_mask_in_volume] at hres
    rw [if_neg hp] at hres
    simp at hres
  obtain ⟨res', heq, w1, w2, w3, c1, c2, c3, hwr, hcr, hn1, hn2, hn3, hb1, hb2, hb3,
    hcb1, hcb2, hcb3, he1, he2, hx1, hx2, hvol, hflags⟩ :=
    segment_mask_in_volume_master segFn vol0 n s rest cfg hproj hsort
  rw [hres] at heq
  injection heq with heq'
  subst heq'
  have hsn : s ≤ (n : Int) - 1 := hhi s (by simp)
  have hsM : s ≤ rest.foldl max s := le_foldl_max rest s
  have hMn : rest.foldl max s ≤ (n : Int) - 1 :=
    foldl_max_le rest s ((n : Int) - 1) hsn (fun x hx => hhi x (by simp [hx]))
  constructor
  · intro w hw
    rw [hwr] at hw
    rcases List.mem_append.mp hw with hw' | hw3'
    · rcases List.mem_append.mp hw' with h1 | h2
      · have hb := hb1 w h1
        exact ⟨hb.1, by omega⟩
      · have hb := hb2 w h2
        exact ⟨by omega, hb.2⟩
    · have hb := hb3 w hw3'
      exact ⟨by omega, by omega⟩
  · intro hsl w hw
    obtain ⟨hw1e, _⟩ := he1 (by simp [hsl])
    rw [hwr, hw1e] at hw
    simp only [List.nil_append] at hw
    rcases List.mem_append.mp hw with h2 | h3
    · have hb := hb2 w h2
      omega
    · have hb := hb3 w h3
      omega

/-- Witness for C6 on a concrete volume of 10 slices with seeds `[2, 6]`. -/
theorem C6_witness :
    ∃ res, segment_mask_in_volume (fun _ => ([] : Mask)) (fun _ => []) 10 [2, 6]
        ⟨false, false, 0, "mask", 0⟩ = some res ∧
      ((∀ w ∈ res.writes, 0 ≤ w ∧ w ≤ (10 : Int) - 1) ∧
        ((⟨false, false, 0, "mask", 0⟩ : Config).stop_lower = true →
          ∀ w ∈ res.writes, (2 : Int) ≤ w)) := by
  rcases hr : segment_mask_in_volume (fun _ => ([] : Mask)) (fun _ => []) 10 [2, 6]
      ⟨false, false, 0, "mask", 0⟩ with _ | res
  · have hs : (segment_mask_in_volume (fun _ => ([] : Mask)) (fun _ => []) 10 [2, 6]
        ⟨false, false, 0, "mask", 0⟩).isSome = true := by decide
    rw [hr] at hs
    simp at hs
  · exact ⟨res, rfl, C6_range_walks_in_bounds _ _ _ _ _ _ _ (by decide) (by decide)
      (by decide) hr⟩

/-- C7: the projection mode determines the prompt components of every
segmenter call: `mask` uses box and mask but not points, `points` uses box,
mask and points combined, `bounding_box` uses the box only. -/
theorem C7_projection_prompt_flags (segFn : SegCall → Mask) (vol0 : Int → Mask)
    (n : Nat) (s : Int) (rest : List Int) (cfg : Config) (res : SegState)
    (hsort : (s :: rest).Pairwise (· < ·))
    (hres : segment_mask_in_volume segFn vol0 n (s :: rest) cfg = some res) :
    (cfg.projection = "mask" → ∀ c ∈ res.calls,
      c.use_box = true ∧ c.use_mask = true ∧ c.use_points = false) ∧
    (cfg.projection = "points" → ∀ c ∈ res.calls,
      c.use_box = true ∧ c.use_mask = true ∧ c.use_points = true) ∧
    (cfg.projection = "bounding_box" → ∀ c ∈ res.calls,
      c.use_box = true ∧ c.use_mask = false ∧ c.use_points = false) := by
  refine ⟨?_, ?_, ?_⟩
  · intro hp
    obtain ⟨res', heq, w1, w2, w3, c1, c2, c3, hwr, hcr, hn1, hn2, hn3, hb1, hb2, hb3,
      hcb1, hcb2, hcb3, he1, he2, hx1, hx2, hvol, hflags⟩ :=
      segment_mask_in_volume_master segFn vol0 n s rest cfg (Or.inl hp) hsort
    rw [hres] at heq
    injection heq with heq'
    subst heq'
    intro c hc
    obtain ⟨hbx, hmk, hpt, _⟩ := hflags c hc
    rw [hp] at hbx hmk hpt
    simp only [if_pos rfl] at hbx hmk hpt
    exact ⟨hbx, hmk, hpt⟩
  · intro hp
    obtain ⟨res', heq, w1, w2, w3, c1, c2, c3, hwr, hcr, hn1, hn2, hn3, hb1, hb2, hb3,
      hcb1, hcb2, hcb3, he1, he2, hx1, hx2, hvol, hflags⟩ :=
      segment_mask_in_volume_master segFn vol0 n s rest cfg (Or.inr (Or.inr hp)) hsort
    rw [hres] at heq
    injection heq with heq'
    subst heq'
    intro c hc
    obtain ⟨hbx, hmk, hpt, _⟩ := hflags c hc
    rw [hp] at hbx hmk hpt
    rw [if_neg (by decide), if_pos rfl] at hbx hmk hpt
    exact ⟨hbx, hmk, hpt⟩
  · intro hp
    obtain ⟨res', heq, w1, w2, w3, c1, c2, c3, hwr, hcr, hn1, hn2, hn3, hb1, hb2, hb3,
      hcb1, hcb2, hcb3, he1, he2, hx1, hx2, hvol, hflags⟩ :=
      segment_mask_in_volume_master segFn vol0 n s rest cfg (Or.inr (Or.inl hp)) hsort
    rw [hres] at heq
    injection heq with heq'
    subst heq'
    intro c hc
    obtain ⟨hbx, hmk, hpt, _⟩ := hflags c hc
    rw [hp] at hbx hmk hpt
    rw [if_neg (by decide), if_neg (by decide)] at hbx hmk hpt
    exact ⟨hbx, hmk, hpt⟩

/-- Witness for C7 on a concrete run with projection `points`. -/
theorem C7_witness :
    ∃ res, segment_mask_in_volume (fun _ => ([] : Mask)) (fun _ => []) 10 [2, 6]
        ⟨false, false, 0, "points", 0⟩ = some res ∧
      (((⟨false, false, 0, "points", 0⟩ : Config).projection = "mask" →
        ∀ c ∈ res.calls, c.use_box = true ∧ c.use_mask = true ∧ c.use_points = false) ∧
       ((⟨false, false, 0, "points", 0⟩ : Config).projection = "points" →
        ∀ c ∈ res.calls, c.use_box = true ∧ c.use_mask = true ∧ c.use_points = true) ∧
       ((⟨false, false, 0, "points", 0⟩ : Config).projection = "bounding_box" →
        ∀ c ∈ res.calls, c.use_box = true ∧ c.use_mask = false ∧
          c.use_points = false)) := by
  rcases hr : segment_mask_in_volume (fun _ => ([] : Mask)) (fun _ => []) 10 [2, 6]
      ⟨false, false, 0, "points", 0⟩ with _ | res
  · have hs : (segment_mask_in_volume (fun _ => ([] : Mask)) (fun _ => []) 10 [2, 6]
        ⟨false, false, 0, "points", 0⟩).isSome = true := by decide
    rw [hr] at hs
    simp at hs
  · exact ⟨res, rfl, C7_projection_prompt_flags _ _ _ _ _ _ _ (by decide) hr⟩

/-- C9: the downward range walk runs iff the minimum seed slice is positive
and `stop_lower` is unset (observable as a segmenter call below the minimum
seed), and the upward walk runs iff the maximum seed slice is below the last
slice and `stop_upper` is unset (a call above the maximum seed). -/
theorem C9_walk_guards (segFn : SegCall → Mask) (vol0 : Int → Mask)
    (n : Nat) (s : Int) (rest : List Int) (cfg : Config) (res : SegState) (zTop : Int)
    (hsort : (s :: rest).Pairwise (· < ·))
    (hres : segment_mask_in_volume segFn vol0 n (s :: rest) cfg = some res)
    (hzTop : (s :: rest).getLast? = some zTop) :
    ((∃ c ∈ res.calls, c.slice < s) ↔ (0 < s ∧ cfg.stop_lower = false)) ∧
    ((∃ c ∈ res.calls, zTop < c.slice) ↔
      (zTop < (n : Int) - 1 ∧ cfg.stop_upper = false)) := by
  have hproj : cfg.projection = "mask" ∨ cfg.projection = "bounding_box" ∨
      cfg.projection = "points" := by
    by_contra hp
    simp only [segment_mask_in_volume] at hres
    rw [if_neg hp] at hres
    simp at hres
  obtain ⟨res', heq, w1, w2, w3, c1, c2, c3, hwr, hcr, hn1, hn2, hn3, hb1, hb2, hb3,
    hcb1, hcb2, hcb3, he1, he2, hx1, hx2, hvol, hflags⟩ :=
    segment_mask_in_volume_master segFn vol0 n s rest cfg hproj hsort
  rw [hres] at heq
  injection heq with heq'
  subst heq'
  rw [foldl_max_getLast rest s hsort] at hzTop
  injection hzTop with hzTop'
  subst hzTop'
  have hsM : s ≤ rest.foldl max s := le_foldl_max rest s
  constructor
  · constructor
    · rintro ⟨c, hc, hlt⟩
      by_contra hg
      obtain ⟨_, hc1e⟩ := he1 hg
      rw [hcr, hc1e] at hc
      simp only [List.nil_append] at hc
      rcases List.mem_append.mp hc with h2 | h3
      · have hb := (hcb2 c h2).1
        omega
      · have hb := (hcb3 c h3).1
        omega
    · intro hg
      obtain ⟨c, hc, hcs⟩ := hx1 hg
      refine ⟨c, ?_, by omega⟩
      rw [hcr]
      exact List.mem_append_left _ (List.mem_append_left _ hc)
  · constructor
    · rintro ⟨c, hc, hgt⟩
      by_contra hg
      obtain ⟨_, hc2e⟩ := he2 hg
      rw [hcr, hc2e] at hc
      simp only [List.append_nil] at hc
      rcases List.mem_append.mp hc with h1 | h3
      · have hb := (hcb1 c h1).2
        omega
      · have hb := (hcb3 c h3).2
        omega
    · intro hg
      obtain ⟨c, hc, hcs⟩ := hx2 hg
      refine ⟨c, ?_, by omega⟩
      rw [hcr]
      exact List.mem_append_left _ (List.mem_append_right _ hc)

/-- Witness for C9 on a concrete run (seeds `[2, 6]`, 10 slices, no stops). -/
theorem C9_witness :
    ∃ res, segment_mask_in_volume (fun _ => ([] : Mask)) (fun _ => []) 10 [2, 6]
        ⟨false, false, 0, "mask", 0⟩ = some res ∧
      (((∃ c ∈ res.calls, c.slice < 2) ↔
          ((0 : Int) < 2 ∧ (⟨false, false, 0, "mask", 0⟩ : Config).stop_lower = false)) ∧
       ((∃ c ∈ res.calls, (6 : Int) < c.slice) ↔
          ((6 : Int) < (10 : Int) - 1 ∧
            (⟨false, false, 0, "mask", 0⟩ : Config).stop_upper = false))) := by
  rcases hr : segment_mask_in_volume (fun _ => ([] : Mask)) (fun _ => []) 10 [2, 6]
      ⟨false, false, 0, "mask", 0⟩ with _ | res
  · have hs : (segment_mask_in_volume (fun _ => ([] : Mask)) (fun _ => []) 10 [2, 6]
        ⟨false, false, 0, "mask", 0⟩).isSome = true := by decide
    rw [hr] at hs
    simp at hs
  · exact ⟨res, rfl, C9_walk_guards _ _ _ _ _ _ _ 6 (by decide) hr (by decide)⟩

/-- C10: one `segment_mask_in_volume` run on a strictly increasing slice list
writes each slice index at most once, never writes an index of
`segmented_slices`, and on return the masks at the seed slices are exactly
those passed in. -/
theorem C10_write_once_seeds_untouched (segFn : SegCall → Mask) (vol0 : Int → Mask)
    (n : Nat) (s : Int) (rest : List Int) (cfg : Config) (res : SegState)
    (hsort : (s :: rest).Pairwise (· < ·))
    (hres : segment_mask_in_volume segFn vol0 n (s :: rest) cfg = some res) :
    res.writes.Nodup ∧
    (∀ x ∈ s :: rest, x ∉ res.writes ∧ res.vol x = vol0 x) := by
  have hproj : cfg.projection = "mask" ∨ cfg.projection = "bounding_box" ∨
      cfg.projection = "points" := by
    by_contra hp
    simp only [segment_mask_in_volume] at hres
    rw [if_neg hp] at hres
    simp at hres
  obtain ⟨res', heq, w1, w2, w3, c1, c2, c3, hwr, hcr, hn1, hn2, hn3, hb1, hb2, hb3,
    hcb1, hcb2, hcb3, he1, he2, hx1, hx2, hvol, hflags⟩ :=
    segment_mask_in_volume_master segFn vol0 n s rest cfg hproj hsort
  rw [hres] at heq
  injection heq with heq'
  subst heq'
  have hsM : s ≤ rest.foldl max s := le_foldl_max rest s
  constructor
  · rw [hwr]
    rw [List.nodup_append, List.nodup_append]
    refine ⟨⟨hn1, hn2, ?_⟩, hn3, ?_⟩
    · intro a h1 h2
      have hb1' := hb1 a h1
      have hb2' := hb2 a h2
      omega
    · intro a ha hw3m
      have hb3' := hb3 a hw3m
      rcases List.mem_append.mp ha with h1 | h2
      · have hb1' := hb1 a h1
        omega
      · have hb2' := hb2 a h2
        omega
  · intro x hx
    have hx_ge : s ≤ x := by
      rcases List.mem_cons.mp hx with rfl | hx'
      · exact le_refl x
      · exact le_of_lt ((List.pairwise_cons.mp hsort).1 x hx')
    have hx_le : x ≤ rest.foldl max s := by
      rcases List.mem_cons.mp hx with rfl | hx'
      · exact hsM
      · exact mem_le_foldl_max rest s x hx'
    have hnw : x ∉ (w1 ++ w2) ++ w3 := by
      intro hmem
      rcases List.mem_append.mp hmem with h12 | h3
      · rcases List.mem_append.mp h12 with h1 | h2
        · have hb := hb1 x h1
          omega
        · have hb := hb2 x h2
          omega
      · exact (hb3 x h3).2.2 hx
    refine ⟨by rw [hwr]; exact hnw, ?_⟩
    exact hvol x (fun hh => hnw (List.mem_append_left _ (List.mem_append_left _ hh)))
      (fun hh => hnw (List.mem_append_left _ (List.mem_append_right _ hh)))
      (fun hh => hnw (List.mem_append_right _ hh))

/-- Witness for C10 on a concrete run (seeds `[2, 6]`, 10 slices). -/
theorem C10_witness :
    ∃ res, segment_mask_in_volume (fun _ => ([] : Mask)) (fun _ => []) 10 [2, 6]
        ⟨false, false, 0, "mask", 0⟩ = some res ∧
      (res.writes.Nodup ∧
        (∀ x ∈ ((2 : Int) :: [6]), x ∉ res.writes ∧ res.vol x = (fun _ => ([] : Mask)) x)) := by
  rcases hr : segment_mask_in_volume (fun _ => ([] : Mask)) (fun _ => []) 10 [2, 6]
      ⟨false, false, 0, "mask", 0⟩ with _ | res
  · have hs : (segment_mask_in_volume (fun _ => ([] : Mask)) (fun _ => []) 10 [2, 6]
        ⟨false, false, 0, "mask", 0⟩).isSome = true := by decide
    rw [hr] at hs
    simp at hs
  · exact ⟨res, rfl, C10_write_once_seeds_untouched _ _ _ _ _ _ _ (by decide) hr⟩

/-- C8: when neither gap endpoint is a stop boundary, a gap of 2 segments its
single interior slice `z_start + 1` exactly once from the logical OR of the
two boundary masks (one write, one call, no directional walking); and for an
even gap larger than 2 the midpoint `z_mid`, written by neither directional
walk, is filled last the same way, prompted by the union of the masks at its
two adjacent slices `z_mid - 1` and `z_mid + 1` in the resulting volume. -/
theorem C8_union_mask_prompts (segFn : SegCall → Mask) (ub um up : Bool) (ext : ℚ)
    (z0 z1 : Int) (sl su : Bool) (st : SegState) (z_start z_stop : Int)
    (hnl : ¬(z_start = z0 ∧ sl = true)) (hnu : ¬(z_stop = z1 ∧ su = true)) :
    (z_stop - z_start = 2 →
      (fill_gap segFn ub um up ext z0 z1 sl su st (z_start, z_stop)).writes
        = st.writes ++ [z_start + 1] ∧
      (fill_gap segFn ub um up ext z0 z1 sl su st (z_start, z_stop)).vol (z_start + 1)
        = segFn (mkCall ub um up ext (z_start + 1)
            (maskOr (st.vol z_start) (st.vol z_stop))) ∧
      (fill_gap segFn ub um up ext z0 z1 sl su st (z_start, z_stop)).calls
        = st.calls ++ [mkCall ub um up ext (z_start + 1)
            (maskOr (st.vol z_start) (st.vol z_stop))]) ∧
    (z_start + 3 ≤ z_stop → (z_stop - z_start) % 2 = 0 →
      ∃ app,
        (fill_gap segFn ub um up ext z0 z1 sl su st (z_start, z_stop)).writes
          = st.writes ++ (app ++ [(z_start + z_stop).fdiv 2]) ∧
        (z_start + z_stop).fdiv 2 ∉ app ∧
        (fill_gap segFn ub um up ext z0 z1 sl su st (z_start, z_stop)).vol
            ((z_start + z_stop).fdiv 2)
          = segFn (mkCall ub um up ext ((z_start + z_stop).fdiv 2)
              (maskOr
                ((fill_gap segFn ub um up ext z0 z1 sl su st (z_start, z_stop)).vol
                  ((z_start + z_stop).fdiv 2 - 1))
                ((fill_gap segFn ub um up ext z0 z1 sl su st (z_start, z_stop)).vol
                  ((z_start + z_stop).fdiv 2 + 1)))) ∧
        (fill_gap segFn ub um up ext z0 z1 sl su st (z_start, z_stop)).calls.getLast?
          = some (mkCall ub um up ext ((z_start + z_stop).fdiv 2)
              (maskOr
                ((fill_gap segFn ub um up ext z0 z1 sl su st (z_start, z_stop)).vol
                  ((z_start + z_stop).fdiv 2 - 1))
                ((fill_gap segFn ub um up ext z0 z1 sl su st (z_start, z_stop)).vol
                  ((z_start + z_stop).fdiv 2 + 1))))) := by
  constructor
  · intro h2
    simp only [fill_gap]
    rw [if_neg (by omega : ¬(z_stop - z_start = 1)), if_neg hnl, if_neg hnu, if_pos h2]
    exact ⟨rfl, Function.update_same _ _ _, rfl⟩
  · intro h5 h6
    have hmid : (z_start + z_stop).fdiv 2 = (z_start + z_stop) / 2 :=
      Int.fdiv_eq_ediv _ (by omega)
    simp only [fill_gap, hmid]
    rw [if_neg (by omega : ¬(z_stop - z_start = 1)), if_neg hnl, if_neg hnu,
      if_neg (by omega : ¬(z_stop - z_start = 2)), if_pos h6, if_pos h6]
    obtain ⟨cApp1, hw1, hv1, hcs1, hmap1, _⟩ :=
      segment_range_fwd_ge_spec segFn ub um up ext z_start ((z_start + z_stop) / 2)
        st (by omega)
    obtain ⟨cApp2, hw2, hv2, hcs2, hmap2, _⟩ :=
      segment_range_bwd_le_spec segFn ub um up ext z_stop ((z_start + z_stop) / 2)
        (segment_range segFn ub um up ext z_start ((z_start + z_stop) / 2) 1 .ge none st)
        (by omega)
    refine ⟨intRun (z_start + 1) 1 ((z_start + z_stop) / 2 - z_start - 1).toNat
        ++ intRun (z_stop + -1) (-1) (z_stop - (z_start + z_stop) / 2 - 1).toNat,
      ?_, ?_, ?_, ?_⟩
    · simp only [hw2, hw1, List.append_assoc]
    · intro hmem
      rcases List.mem_append.mp hmem with hm | hm
      · rw [intRun_one_mem] at hm
        omega
      · rw [intRun_negone_mem] at hm
        omega
    · simp only [Function.update_same,
        Function.update_noteq
          (show (z_start + z_stop) / 2 - 1 ≠ (z_start + z_stop) / 2 by omega),
        Function.update_noteq
          (show (z_start + z_stop) / 2 + 1 ≠ (z_start + z_stop) / 2 by omega)]
    · simp only [List.getLast?_concat,
        Function.update_noteq
          (show (z_start + z_stop) / 2 - 1 ≠ (z_start + z_stop) / 2 by omega),
        Function.update_noteq
          (show (z_start + z_stop) / 2 + 1 ≠ (z_start + z_stop) / 2 by omega)]

/-- Witness for C8 at the gaps `(0, 2)` and `(0, 4)` (with `z0 = -5`,
`z1 = 9`, so neither endpoint is a stop boundary). -/
theorem C8_witness :
    (((4 : Int) - 0 = 2 →
      (fill_gap (fun _ => ([] : Mask)) true true false 0 (-5) 9 false false
        ⟨fun _ => [], [], []⟩ ((0 : Int), 4)).writes
        = (⟨fun _ => [], [], []⟩ : SegState).writes ++ [(0 : Int) + 1] ∧
      (fill_gap (fun _ => ([] : Mask)) true true false 0 (-5) 9 false false
        ⟨fun _ => [], [], []⟩ ((0 : Int), 4)).vol ((0 : Int) + 1)
        = (fun _ => ([] : Mask)) (mkCall true true false 0 ((0 : Int) + 1)
            (maskOr ((⟨fun _ => [], [], []⟩ : SegState).vol 0)
              ((⟨fun _ => [], [], []⟩ : SegState).vol 4))) ∧
      (fill_gap (fun _ => ([] : Mask)) true true false 0 (-5) 9 false false
        ⟨fun _ => [], [], []⟩ ((0 : Int), 4)).calls
        = (⟨fun _ => [], [], []⟩ : SegState).calls
          ++ [mkCall true true false 0 ((0 : Int) + 1)
            (maskOr ((⟨fun _ => [], [], []⟩ : SegState).vol 0)
              ((⟨fun _ => [], [], []⟩ : SegState).vol 4))]) ∧
    ((0 : Int) + 3 ≤ 4 → ((4 : Int) - 0) % 2 = 0 →
      ∃ app,
        (fill_gap (fun _ => ([] : Mask)) true true false 0 (-5) 9 false false
          ⟨fun _ => [], [], []⟩ ((0 : Int), 4)).writes
          = (⟨fun _ => [], [], []⟩ : SegState).writes
            ++ (app ++ [((0 : Int) + 4).fdiv 2]) ∧
        ((0 : Int) + 4).fdiv 2 ∉ app ∧
        (fill_gap (fun _ => ([] : Mask)) true true false 0 (-5) 9 false false
          ⟨fun _ => [], [], []⟩ ((0 : Int), 4)).vol (((0 : Int) + 4).fdiv 2)
          = (fun _ => ([] : Mask)) (mkCall true true false 0 (((0 : Int) + 4).fdiv 2)
              (maskOr
                ((fill_gap (fun _ => ([] : Mask)) true true false 0 (-5) 9 false false
                  ⟨fun _ => [], [], []⟩ ((0 : Int), 4)).vol (((0 : Int) + 4).fdiv 2 - 1))
                ((fill_gap (fun _ => ([] : Mask)) true true false 0 (-5) 9 false false
                  ⟨fun _ => [], [], []⟩ ((0 : Int), 4)).vol
                    (((0 : Int) + 4).fdiv 2 + 1)))) ∧
        (fill_gap (fun _ => ([] : Mask)) true true false 0 (-5) 9 false false
          ⟨fun _ => [], [], []⟩ ((0 : Int), 4)).calls.getLast?
          = some (mkCall true true false 0 (((0 : Int) + 4).fdiv 2)
              (maskOr
                ((fill_gap (fun _ => ([] : Mask)) true true false 0 (-5) 9 false false
                  ⟨fun _ => [], [], []⟩ ((0 : Int), 4)).vol (((0 : Int) + 4).fdiv 2 - 1))
                ((fill_gap (fun _ => ([] : Mask)) true true false 0 (-5) 9 false false
                  ⟨fun _ => [], [], []⟩ ((0 : Int), 4)).vol
                    (((0 : Int) + 4).fdiv 2 + 1)))))) :=
  C8_union_mask_prompts (fun _ => ([] : Mask)) true true false 0 (-5) 9 false false
    ⟨fun _ => [], [], []⟩ 0 4 (by decide) (by decide)

end MicroSam
